import Mathlib

/-!
# Chained hash table of `src/app/src/lib/HashMap/HashMap.c`

A shallow embedding of the string-keyed hash table: primary slots plus one
overflow chain per slot.

Conventions of the embedding.

* A C string is the list of its `char` values before the terminating NUL, so
  `strcmp(a, b) == 0` is equality of lists.
* A pointer that may be `NULL` is an `Option`; a chain pointer is a
  `LinkedList`, whose third constructor stands for a pointer to a node that
  has already been released.
* An operation returns `none` when the C code has no defined behaviour on the
  input (subscript outside the allocated array, read of released memory,
  remainder by zero, overflow of an `int` counter).
* `HT_CAPACITY` comes from `lib/macros.h`, which is not among the sources; it
  is a parameter of every definition that uses it.
-/

namespace HashMapC

/-- The characters of a C string before its terminating NUL, as `char` values. -/
abbrev CString := List Int

/-- The record `Ht_item`, with the fields `HashMap.c` uses: an owned key and
an owned value. -/
structure Ht_item where
  key : CString
  value : CString
deriving DecidableEq

/-- A value of type `LinkedList *`: `NULL`, a live node with its fields `item`
and `next`, or the address of a node that was released. -/
inductive LinkedList where
  | null : LinkedList
  | node (item : Ht_item) (next : LinkedList) : LinkedList
  | freed : LinkedList
deriving DecidableEq

/-- The record `HashTable`, with the fields `HashMap.c` uses: the two parallel
arrays (each a list as long as its allocation), `size` and `count`. -/
structure HashTable where
  items : List (Option Ht_item)
  overflow_buckets : List LinkedList
  size : Int
  count : Int
deriving DecidableEq

/-- The loop of `hash_function`, from the state `j`, `i`: for every character
`i += str[j]` in `unsigned long` arithmetic, then `j++` on the `int` counter,
which has no defined result once `j` is `INT_MAX`. -/
def hash_function_loop : CString → Nat → Nat → Option Nat
  | [], _, i => some i
  | c :: str, j, i =>
    if 2 ^ 31 ≤ j + 1 then none
    else hash_function_loop str (j + 1) (((i : Int) + c) % 2 ^ 64).toNat

/-- The function `hash_function`: `i % HT_CAPACITY` after the loop. -/
def hash_function (HT_CAPACITY : Nat) (str : CString) : Option Nat :=
  if HT_CAPACITY = 0 then none
  else
    match hash_function_loop str 0 0 with
    | none => none
    | some i => some (i % HT_CAPACITY)

/-- Conversion of an `unsigned long` to `int` (32 bits, two's complement). -/
def int_of_ulong (x : Nat) : Int :=
  if x % 2 ^ 32 < 2 ^ 31 then ((x % 2 ^ 32 : Nat) : Int)
  else ((x % 2 ^ 32 : Nat) : Int) - 2 ^ 32

/-- The statement `int index = hash_function(key);` with `index` then used as
a subscript: a negative `index` addresses no element. -/
def ht_index (HT_CAPACITY : Nat) (key : CString) : Option Nat :=
  match hash_function HT_CAPACITY key with
  | none => none
  | some h =>
    let index := int_of_ulong h
    if index < 0 then none else some index.toNat

/-- The function `create_item`: copies of the key and of the value. -/
def create_item (key value : CString) : Ht_item :=
  { key := key, value := value }

/-- The function `create_overflow_buckets`: `table->size` chains, all `NULL`. -/
def create_overflow_buckets (size : Int) : List LinkedList :=
  List.replicate size.toNat LinkedList.null

/-- The function `create_table`. -/
def create_table (size : Int) : HashTable :=
  { items := List.replicate size.toNat none
    overflow_buckets := create_overflow_buckets size
    size := size
    count := 0 }

/-- Modelled from the spec: `allocate_list` is called by `handle_collision` and
defined outside the sources; the spec has the collision path "creating the
chain if absent", so the new node has no successor. The assignment
`head->item = item` that follows the call is part of this definition. -/
def allocate_list (item : Ht_item) : LinkedList :=
  LinkedList.node item LinkedList.null

/-- Modelled from the spec: `linkedlist_insert` is defined outside the
sources; the spec has "append a new Entry to the tail of `overflow[index]`'s
chain", with no check against the keys already in the chain. The result is
the head of the chain; walking into a released node is undefined. -/
def linkedlist_insert : LinkedList → Ht_item → Option LinkedList
  | LinkedList.null, item => some (LinkedList.node item LinkedList.null)
  | LinkedList.freed, _ => none
  | LinkedList.node it next, item =>
    (linkedlist_insert next item).map (LinkedList.node it)

/-- Modelled from the spec: `free_linkedlist` is defined outside the sources;
the spec has it destroy every node of the list it is given. It succeeds on a
`NULL`-terminated list of live nodes and is undefined when the walk reaches a
node that was released before. -/
def free_linkedlist : LinkedList → Option Unit
  | LinkedList.null => some ()
  | LinkedList.freed => none
  | LinkedList.node _ next => free_linkedlist next

/-- The function `handle_collision`. -/
def handle_collision (table : HashTable) (index : Nat) (item : Ht_item) :
    Option HashTable :=
  match table.overflow_buckets[index]? with
  | none => none
  | some LinkedList.null =>
    some { table with
      overflow_buckets := table.overflow_buckets.set index (allocate_list item) }
  | some head =>
    match linkedlist_insert head item with
    | none => none
    | some list =>
      some { table with overflow_buckets := table.overflow_buckets.set index list }

/-- The function `ht_insert`. The second component of the result tells
whether "Insert Error: Hash Table is full" was printed. -/
def ht_insert (HT_CAPACITY : Nat) (table : HashTable) (key value : CString) :
    Option (HashTable × Bool) :=
  let item := create_item key value
  match ht_index HT_CAPACITY key with
  | none => none
  | some index =>
    match table.items[index]? with
    | none => none
    | some none =>
      if table.count = table.size then some (table, true)
      else
        some ({ table with
                items := table.items.set index (some item)
                count := table.count + 1 }, false)
    | some (some current_item) =>
      if current_item.key = key then
        some ({ table with
                items := table.items.set index
                  (some { current_item with value := value }) }, false)
      else
        match handle_collision table index item with
        | none => none
        | some table1 => some (table1, false)

/-- The loop of `ht_search`, entered with a non-`NULL` `item`. -/
def ht_search_loop (key : CString) : Ht_item → LinkedList → Option (Option CString)
  | item, LinkedList.null =>
    if item.key = key then some (some item.value) else some none
  | item, LinkedList.freed =>
    if item.key = key then some (some item.value) else none
  | item, LinkedList.node it next =>
    if item.key = key then some (some item.value) else ht_search_loop key it next

/-- The function `ht_search`; the inner `none` is the `NULL` result. -/
def ht_search (HT_CAPACITY : Nat) (table : HashTable) (key : CString) :
    Option (Option CString) :=
  match ht_index HT_CAPACITY key with
  | none => none
  | some index =>
    match table.items[index]?, table.overflow_buckets[index]? with
    | some none, some _ => some none
    | some (some item), some head => ht_search_loop key item head
    | _, _ => none

/-- The `while (curr)` loop of `ht_delete` from its second iteration on.
After `curr = curr->next; prev = curr;` the two pointers are equal, so on a
match `prev->next = curr->next` assigns a field to itself, `curr->next = NULL`
cuts the successors off and `free_linkedlist(curr)` releases `curr` while the
node before it still points to it. The result is the chain from `curr` on as
the loop leaves it. -/
def ht_delete_loop (key : CString) : LinkedList → Option LinkedList
  | LinkedList.null => some LinkedList.null
  | LinkedList.freed => none
  | LinkedList.node item next =>
    if item.key = key then some LinkedList.freed
    else (ht_delete_loop key next).map (LinkedList.node item)

/-- The function `ht_delete`. -/
def ht_delete (HT_CAPACITY : Nat) (table : HashTable) (key : CString) :
    Option HashTable :=
  match ht_index HT_CAPACITY key with
  | none => none
  | some index =>
    match table.items[index]?, table.overflow_buckets[index]? with
    | some none, some _ => some table
    | some (some item), some LinkedList.null =>
      if item.key = key then
        some { table with
          items := table.items.set index none
          count := table.count - 1 }
      else some table
    | some (some _), some LinkedList.freed => none
    | some (some item), some (LinkedList.node it next) =>
      if item.key = key then
        some { table with
          items := table.items.set index (some (create_item it.key it.value))
          overflow_buckets := table.overflow_buckets.set index next }
      else if it.key = key then
        match free_linkedlist (LinkedList.node it next) with
        | none => none
        | some _ =>
          some { table with
            overflow_buckets := table.overflow_buckets.set index LinkedList.null }
      else
        match ht_delete_loop key next with
        | none => none
        | some rest =>
          some { table with
            overflow_buckets :=
              table.overflow_buckets.set index (LinkedList.node it rest) }
    | _, _ => none

/-- Tables obtained from `create_table` by calls of `ht_insert` and
`ht_delete` that have defined behaviour. -/
inductive Reachable (HT_CAPACITY : Nat) : HashTable → Prop where
  | create (size : Int) : Reachable HT_CAPACITY (create_table size)
  | insert {t t1 : HashTable} {full : Bool} (key value : CString) :
      Reachable HT_CAPACITY t →
      ht_insert HT_CAPACITY t key value = some (t1, full) →
      Reachable HT_CAPACITY t1
  | delete {t t1 : HashTable} (key : CString) :
      Reachable HT_CAPACITY t →
      ht_delete HT_CAPACITY t key = some t1 →
      Reachable HT_CAPACITY t1

/-- The number of primary slots that hold an item. -/
def occupied_slots : List (Option Ht_item) → Nat
  | [] => 0
  | none :: items => occupied_slots items
  | some _ :: items => occupied_slots items + 1

/-- A call of the interface, for writing down call sequences. -/
inductive Call where
  | insert (key value : CString) : Call
  | delete (key : CString) : Call
deriving DecidableEq

/-- The table after a sequence of calls, when every call has defined
behaviour. -/
def run (HT_CAPACITY : Nat) : HashTable → List Call → Option HashTable
  | t, [] => some t
  | t, Call.insert key value :: calls =>
    match ht_insert HT_CAPACITY t key value with
    | none => none
    | some (t1, _) => run HT_CAPACITY t1 calls
  | t, Call.delete key :: calls =>
    match ht_delete HT_CAPACITY t key with
    | none => none
    | some t1 => run HT_CAPACITY t1 calls

/-- Capacity 5 after `ht_insert("ab", "1")` and `ht_insert("ba", "2")`: both
keys have character sum 195, so `"ab"` sits in slot 0 and `"ba"` in its chain. -/
def table_ab_ba : HashTable :=
  { items := [some (create_item [97, 98] [49]), none, none, none, none]
    overflow_buckets :=
      [LinkedList.node (create_item [98, 97] [50]) LinkedList.null,
       LinkedList.null, LinkedList.null, LinkedList.null, LinkedList.null]
    size := 5
    count := 1 }

/-- The live nodes of a chain in order, up to its end (`NULL`, or a pointer
to released memory). -/
def LinkedList.nodes : LinkedList → List Ht_item
  | LinkedList.null => []
  | LinkedList.freed => []
  | LinkedList.node item next => item :: next.nodes

/-- Whether a chain is a `NULL`-terminated list of live nodes. -/
def LinkedList.terminated : LinkedList → Bool
  | LinkedList.null => true
  | LinkedList.freed => false
  | LinkedList.node _ next => next.terminated

/-- The keys stored for index `i`: the key of the primary entry, then the keys
of the nodes of the overflow chain. -/
def stored_keys (t : HashTable) (i : Nat) : List CString :=
  (match t.items[i]? with
    | some (some item) => [item.key]
    | _ => []) ++
  (match t.overflow_buckets[i]? with
    | some head => head.nodes.map Ht_item.key
    | none => [])

/-- Capacity 5 filled to capacity by `ht_insert` of the non-colliding keys
`"a"`, `"b"`, `"c"`, `"d"`, `"e"` (character codes 97 to 101, indices 2, 3, 4,
0, 1) with values `"1"` to `"5"`. -/
def table_full5 : HashTable :=
  { items := [some (create_item [100] [52]), some (create_item [101] [53]),
      some (create_item [97] [49]), some (create_item [98] [50]),
      some (create_item [99] [51])]
    overflow_buckets :=
      [LinkedList.null, LinkedList.null, LinkedList.null, LinkedList.null,
       LinkedList.null]
    size := 5
    count := 5 }

/-- The value of `EXIT_SUCCESS` of `<stdlib.h>`. -/
def EXIT_SUCCESS : Int := 0

/-- The value of `EXIT_FAILURE` of `<stdlib.h>`. -/
def EXIT_FAILURE : Int := 1

/-- Modelled from the spec: `logger` and `print_usage` are called by `main` and
defined outside the sources; the spec has `main` "signaling a usage error", so
each call is recorded as a report and returns. -/
inductive Report where
  | logger_error_usage : Report
  | print_usage : Report
deriving DecidableEq

/-- The function `main` of `main.c`, as a function of `argc`: the reports it
makes and the status it returns. -/
def main (argc : Int) : List Report × Int :=
  if argc < 4 then
    ([Report.logger_error_usage, Report.print_usage], EXIT_FAILURE)
  else ([], EXIT_SUCCESS)

/-- A table value whose `count` equals `size` while its only primary slot is
empty. No sequence of calls produces it; it serves to evaluate the capacity
check of `ht_insert`. -/
def table_counted_full : HashTable :=
  { items := [none]
    overflow_buckets := [LinkedList.null]
    size := 1
    count := 1 }

/-- Reference definition of search, in the words of the spec: "not found" when
the primary slot is empty; otherwise the value of the first entry whose key
equals `key` in the sequence made of the primary entry followed by the chain
entries in order, and "not found" when no entry of the sequence has that key. -/
def ht_search_spec (slot : Option Ht_item) (chain : List Ht_item) (key : CString) :
    Option CString :=
  match slot with
  | none => none
  | some primary =>
    ((primary :: chain).find? (fun entry => decide (entry.key = key))).map Ht_item.value

/-- The chain made of the given live nodes in order, ending in `tail`. -/
def chain_of : List Ht_item → LinkedList → LinkedList
  | [], tail => tail
  | item :: rest, tail => LinkedList.node item (chain_of rest tail)

/-- Capacity 5 after `ht_insert` of `"abc"`, `"acb"`, `"bac"`, `"bca"` with
values `"1"` to `"4"`: the four keys have character sum 294, so `"abc"` sits
in slot 4 and the other three follow in its chain, in insertion order. -/
def table_four : HashTable :=
  { items := [none, none, none, none, some (create_item [97, 98, 99] [49])]
    overflow_buckets :=
      [LinkedList.null, LinkedList.null, LinkedList.null, LinkedList.null,
       LinkedList.node (create_item [97, 99, 98] [50])
         (LinkedList.node (create_item [98, 97, 99] [51])
           (LinkedList.node (create_item [98, 99, 97] [52]) LinkedList.null))]
    size := 5
    count := 1 }

/-! ## Evaluation of the operations one branch at a time -/

theorem ht_insert_empty {cap : Nat} {t : HashTable} {key : CString} {i : Nat}
    (value : CString) (hi : ht_index cap key = some i)
    (hitem : t.items[i]? = some none) (hcount : t.count ≠ t.size) :
    ht_insert cap t key value =
      some ({ t with
              items := t.items.set i (some (create_item key value))
              count := t.count + 1 }, false) := by
  simp [ht_insert, hi, hitem, hcount]

theorem ht_insert_full {cap : Nat} {t : HashTable} {key : CString} {i : Nat}
    (value : CString) (hi : ht_index cap key = some i)
    (hitem : t.items[i]? = some none) (hcount : t.count = t.size) :
    ht_insert cap t key value = some (t, true) := by
  simp [ht_insert, hi, hitem, hcount]

theorem ht_insert_update {cap : Nat} {t : HashTable} {key : CString} {i : Nat}
    {cur : Ht_item} (value : CString) (hi : ht_index cap key = some i)
    (hitem : t.items[i]? = some (some cur)) (hkey : cur.key = key) :
    ht_insert cap t key value =
      some ({ t with
              items := t.items.set i (some { cur with value := value }) }, false) := by
  simp [ht_insert, hi, hitem, hkey]

theorem ht_insert_collision {cap : Nat} {t : HashTable} {key : CString} {i : Nat}
    {cur : Ht_item} (value : CString) (hi : ht_index cap key = some i)
    (hitem : t.items[i]? = some (some cur)) (hkey : cur.key ≠ key) :
    ht_insert cap t key value =
      (handle_collision t i (create_item key value)).map (fun t1 => (t1, false)) := by
  simp only [ht_insert, hi, hitem, if_neg hkey]
  cases handle_collision t i (create_item key value) <;> rfl

theorem handle_collision_null {t : HashTable} {i : Nat} (item : Ht_item)
    (hchain : t.overflow_buckets[i]? = some LinkedList.null) :
    handle_collision t i item =
      some { t with
        overflow_buckets := t.overflow_buckets.set i (LinkedList.node item LinkedList.null) } := by
  simp [handle_collision, hchain, allocate_list]

theorem handle_collision_chain {t : HashTable} {i : Nat} (item : Ht_item)
    {head : LinkedList} (hchain : t.overflow_buckets[i]? = some head) :
    handle_collision t i item =
      (linkedlist_insert head item).map
        (fun list => { t with overflow_buckets := t.overflow_buckets.set i list }) := by
  cases head with
  | null => simp [handle_collision, hchain, allocate_list, linkedlist_insert]
  | freed => simp [handle_collision, hchain, linkedlist_insert]
  | node it next =>
    simp only [handle_collision, hchain]
    cases linkedlist_insert (LinkedList.node it next) item <;> rfl

theorem ht_search_empty {cap : Nat} {t : HashTable} {key : CString} {i : Nat}
    {head : LinkedList} (hi : ht_index cap key = some i)
    (hitem : t.items[i]? = some none) (hchain : t.overflow_buckets[i]? = some head) :
    ht_search cap t key = some none := by
  simp [ht_search, hi, hitem, hchain]

theorem ht_search_item {cap : Nat} {t : HashTable} {key : CString} {i : Nat}
    {item : Ht_item} {head : LinkedList} (hi : ht_index cap key = some i)
    (hitem : t.items[i]? = some (some item))
    (hchain : t.overflow_buckets[i]? = some head) :
    ht_search cap t key = ht_search_loop key item head := by
  simp [ht_search, hi, hitem, hchain]

theorem ht_insert_chain {cap : Nat} {t : HashTable} {key : CString} {i : Nat}
    {cur : Ht_item} {head list : LinkedList} (value : CString)
    (hi : ht_index cap key = some i)
    (hitem : t.items[i]? = some (some cur)) (hkey : cur.key ≠ key)
    (hchain : t.overflow_buckets[i]? = some head)
    (hlist : linkedlist_insert head (create_item key value) = some list) :
    ht_insert cap t key value =
      some ({ t with overflow_buckets := t.overflow_buckets.set i list }, false) := by
  rw [ht_insert_collision value hi hitem hkey, handle_collision_chain _ hchain, hlist]
  rfl

theorem ht_delete_empty {cap : Nat} {t : HashTable} {key : CString} {i : Nat}
    {head : LinkedList} (hi : ht_index cap key = some i)
    (hitem : t.items[i]? = some none) (hchain : t.overflow_buckets[i]? = some head) :
    ht_delete cap t key = some t := by
  simp [ht_delete, hi, hitem, hchain]

theorem ht_delete_single {cap : Nat} {t : HashTable} {key : CString} {i : Nat}
    {item : Ht_item} (hi : ht_index cap key = some i)
    (hitem : t.items[i]? = some (some item))
    (hchain : t.overflow_buckets[i]? = some LinkedList.null) (hkey : item.key = key) :
    ht_delete cap t key =
      some { t with items := t.items.set i none, count := t.count - 1 } := by
  simp [ht_delete, hi, hitem, hchain, hkey]

theorem ht_delete_promote {cap : Nat} {t : HashTable} {key : CString} {i : Nat}
    {item it : Ht_item} {next : LinkedList} (hi : ht_index cap key = some i)
    (hitem : t.items[i]? = some (some item))
    (hchain : t.overflow_buckets[i]? = some (LinkedList.node it next))
    (hkey : item.key = key) :
    ht_delete cap t key =
      some { t with
        items := t.items.set i (some (create_item it.key it.value))
        overflow_buckets := t.overflow_buckets.set i next } := by
  simp [ht_delete, hi, hitem, hchain, hkey]

theorem ht_delete_other_null {cap : Nat} {t : HashTable} {key : CString} {i : Nat}
    {item : Ht_item} (hi : ht_index cap key = some i)
    (hitem : t.items[i]? = some (some item))
    (hchain : t.overflow_buckets[i]? = some LinkedList.null) (hkey : item.key ≠ key) :
    ht_delete cap t key = some t := by
  simp [ht_delete, hi, hitem, hchain, hkey]

theorem ht_delete_head {cap : Nat} {t : HashTable} {key : CString} {i : Nat}
    {item it : Ht_item} {next : LinkedList} (hi : ht_index cap key = some i)
    (hitem : t.items[i]? = some (some item))
    (hchain : t.overflow_buckets[i]? = some (LinkedList.node it next))
    (hkey : item.key ≠ key) (hhead : it.key = key) :
    ht_delete cap t key =
      (free_linkedlist (LinkedList.node it next)).map
        (fun _ => { t with
          overflow_buckets := t.overflow_buckets.set i LinkedList.null }) := by
  simp only [ht_delete, hi, hitem, hchain, if_neg hkey, if_pos hhead]
  cases free_linkedlist (LinkedList.node it next) <;> rfl

theorem ht_delete_deeper {cap : Nat} {t : HashTable} {key : CString} {i : Nat}
    {item it : Ht_item} {next : LinkedList} (hi : ht_index cap key = some i)
    (hitem : t.items[i]? = some (some item))
    (hchain : t.overflow_buckets[i]? = some (LinkedList.node it next))
    (hkey : item.key ≠ key) (hhead : it.key ≠ key) :
    ht_delete cap t key =
      (ht_delete_loop key next).map
        (fun rest => { t with
          overflow_buckets := t.overflow_buckets.set i (LinkedList.node it rest) }) := by
  simp only [ht_delete, hi, hitem, hchain, if_neg hkey, if_neg hhead]
  cases ht_delete_loop key next <;> rfl

theorem getElem?_set_same {α : Type} {l : List α} {i : Nat} {x : α} (a : α)
    (h : l[i]? = some x) : (l.set i a)[i]? = some a := by
  have hlt : i < l.length := by
    by_contra hge
    rw [List.getElem?_eq_none (Nat.le_of_not_lt hge)] at h
    cases h
  exact List.getElem?_set_self hlt

/-! ## Collisions -/

theorem insert_two_colliding (cap : Nat) (t : HashTable) (a b va vb : CString)
    (i : Nat) (ha : ht_index cap a = some i) (hb : ht_index cap b = some i)
    (hab : a ≠ b) (hitem : t.items[i]? = some none)
    (hchain : t.overflow_buckets[i]? = some LinkedList.null)
    (hcount : t.count < t.size) :
    ∃ t1 t2, ht_insert cap t a va = some (t1, false) ∧
      ht_insert cap t1 b vb = some (t2, false) ∧
      t2.items[i]? = some (some (create_item a va)) ∧
      t2.overflow_buckets[i]? =
        some (LinkedList.node (create_item b vb) LinkedList.null) ∧
      ht_search cap t2 a = some (some va) ∧
      ht_search cap t2 b = some (some vb) := by
  have h1 := ht_insert_empty va ha hitem (ne_of_lt hcount)
  have hitem1 := getElem?_set_same (some (create_item a va)) hitem
  have hchain2 := getElem?_set_same
    (LinkedList.node (create_item b vb) LinkedList.null) hchain
  have h2 := @ht_insert_chain cap
    { t with
      items := t.items.set i (some (create_item a va))
      count := t.count + 1 }
    b i _ _ (allocate_list (create_item b vb)) vb hb hitem1 hab hchain rfl
  refine ⟨_, _, h1, h2, hitem1, hchain2, ?_, ?_⟩
  · rw [ht_search_item ha hitem1 hchain2]
    simp [ht_search_loop, create_item]
  · rw [ht_search_item hb hitem1 hchain2]
    simp [ht_search_loop, create_item, hab]

/-- C4. Collision correctness: in a table whose primary slot and overflow chain
at index `i` are empty and whose `count` is below `size`, for two distinct
keys `a`, `b` whose index `int index = hash_function(key)` is `i`, the calls
`ht_insert(a, va)` and `ht_insert(b, vb)` both succeed, leave `a` in the
primary slot and `b` alone in the chain, and `ht_search` then returns `va` for
`a` and `vb` for `b`. -/
theorem collision_correctness (cap : Nat) (t : HashTable) (a b va vb : CString)
    (i : Nat) (ha : ht_index cap a = some i) (hb : ht_index cap b = some i)
    (hab : a ≠ b) (hitem : t.items[i]? = some none)
    (hchain : t.overflow_buckets[i]? = some LinkedList.null)
    (hcount : t.count < t.size) :
    ∃ t1 t2, ht_insert cap t a va = some (t1, false) ∧
      ht_insert cap t1 b vb = some (t2, false) ∧
      t2.items[i]? = some (some (create_item a va)) ∧
      t2.overflow_buckets[i]? =
        some (LinkedList.node (create_item b vb) LinkedList.null) ∧
      ht_search cap t2 a = some (some va) ∧
      ht_search cap t2 b = some (some vb) :=
  insert_two_colliding cap t a b va vb i ha hb hab hitem hchain hcount

theorem collision_correctness_witness :
    (ht_index 5 [97] = some 2 ∧ ht_index 5 [102] = some 2 ∧
      ([97] : CString) ≠ [102] ∧ (create_table 5).items[2]? = some none ∧
      (create_table 5).overflow_buckets[2]? = some LinkedList.null ∧
      (create_table 5).count < (create_table 5).size) ∧
    ∃ t1 t2, ht_insert 5 (create_table 5) [97] [49] = some (t1, false) ∧
      ht_insert 5 t1 [102] [50] = some (t2, false) ∧
      t2.items[2]? = some (some (create_item [97] [49])) ∧
      t2.overflow_buckets[2]? =
        some (LinkedList.node (create_item [102] [50]) LinkedList.null) ∧
      ht_search 5 t2 [97] = some (some [49]) ∧
      ht_search 5 t2 [102] = some (some [50]) :=
  ⟨by decide,
   collision_correctness 5 (create_table 5) [97] [102] [49] [50] 2
    (by decide) (by decide) (by decide) (by decide) (by decide) (by decide)⟩

theorem create_table_items {size : Int} {i : Nat} (hi : (i : Int) < size) :
    (create_table size).items[i]? = some none := by
  have h : i < size.toNat := by omega
  simp [create_table, List.getElem?_replicate, h]

theorem create_table_overflow_buckets {size : Int} {i : Nat} (hi : (i : Int) < size) :
    (create_table size).overflow_buckets[i]? = some LinkedList.null := by
  have h : i < size.toNat := by omega
  simp [create_table, create_overflow_buckets, List.getElem?_replicate, h]

/-- C5. Chain-head promotion scenario: on a freshly created table, for two
distinct keys `a`, `b` hashing to the same index inside the table, the calls
`ht_insert(a, v1)`, `ht_insert(b, v2)` and `ht_delete(a)` all succeed, and
afterwards `ht_search(a)` returns `NULL` while `ht_search(b)` returns `v2`
(the claim has `v1 = "1"` and `v2 = "2"`). -/
theorem promotion_scenario (cap : Nat) (size : Int) (a b v1 v2 : CString) (i : Nat)
    (ha : ht_index cap a = some i) (hb : ht_index cap b = some i)
    (hi : (i : Int) < size) (hab : a ≠ b) :
    ∃ t1 t2 t3, ht_insert cap (create_table size) a v1 = some (t1, false) ∧
      ht_insert cap t1 b v2 = some (t2, false) ∧
      ht_delete cap t2 a = some t3 ∧
      ht_search cap t3 a = some none ∧
      ht_search cap t3 b = some (some v2) := by
  have hitem := create_table_items hi
  have hchain := create_table_overflow_buckets hi
  have hcount : (create_table size).count < (create_table size).size := by
    show (0 : Int) < size
    omega
  obtain ⟨t1, t2, h1, h2, hitem2, hchain2, -, -⟩ :=
    insert_two_colliding cap (create_table size) a b v1 v2 i ha hb hab hitem hchain hcount
  have h3 := ht_delete_promote ha hitem2 hchain2 rfl
  have hitem3 := getElem?_set_same (some (create_item b v2)) hitem2
  have hchain3 := getElem?_set_same LinkedList.null hchain2
  refine ⟨t1, t2, _, h1, h2, h3, ?_, ?_⟩
  · rw [ht_search_item ha hitem3 hchain3]
    simp [ht_search_loop, create_item, Ne.symm hab]
  · rw [ht_search_item hb hitem3 hchain3]
    simp [ht_search_loop, create_item]

theorem promotion_scenario_witness :
    (ht_index 5 [97] = some 2 ∧ ht_index 5 [102] = some 2 ∧ ((2 : Nat) : Int) < 5 ∧
      ([97] : CString) ≠ [102]) ∧
    ∃ t1 t2 t3, ht_insert 5 (create_table 5) [97] [49] = some (t1, false) ∧
      ht_insert 5 t1 [102] [50] = some (t2, false) ∧
      ht_delete 5 t2 [97] = some t3 ∧
      ht_search 5 t3 [97] = some none ∧
      ht_search 5 t3 [102] = some (some [50]) :=
  ⟨by decide,
   promotion_scenario 5 5 [97] [102] [49] [50] 2
    (by decide) (by decide) (by decide) (by decide)⟩

/-! ## Every way a call can return -/

theorem ht_insert_cases {cap : Nat} {t t1 : HashTable} {key value : CString}
    {full : Bool} (h : ht_insert cap t key value = some (t1, full)) :
    ∃ i, ht_index cap key = some i ∧
      ((t.items[i]? = some none ∧ t.count = t.size ∧ t1 = t ∧ full = true) ∨
       (t.items[i]? = some none ∧ t.count ≠ t.size ∧ full = false ∧
          t1 = { t with
                 items := t.items.set i (some (create_item key value))
                 count := t.count + 1 }) ∨
       (∃ cur, t.items[i]? = some (some cur) ∧ cur.key = key ∧ full = false ∧
          t1 = { t with
                 items := t.items.set i (some { cur with value := value }) }) ∨
       (∃ cur head list, t.items[i]? = some (some cur) ∧ cur.key ≠ key ∧
          t.overflow_buckets[i]? = some head ∧
          linkedlist_insert head (create_item key value) = some list ∧
          full = false ∧
          t1 = { t with overflow_buckets := t.overflow_buckets.set i list })) := by
  cases hi : ht_index cap key with
  | none => simp [ht_insert, hi] at h
  | some i =>
    refine ⟨i, rfl, ?_⟩
    cases hitem : t.items[i]? with
    | none => simp [ht_insert, hi, hitem] at h
    | some slot =>
      cases slot with
      | none =>
        by_cases hcount : t.count = t.size
        · rw [ht_insert_full value hi hitem hcount] at h
          simp only [Option.some.injEq, Prod.mk.injEq] at h
          exact Or.inl ⟨rfl, hcount, h.1.symm, h.2.symm⟩
        · rw [ht_insert_empty value hi hitem hcount] at h
          simp only [Option.some.injEq, Prod.mk.injEq] at h
          exact Or.inr (Or.inl ⟨rfl, hcount, h.2.symm, h.1.symm⟩)
      | some cur =>
        by_cases hkey : cur.key = key
        · rw [ht_insert_update value hi hitem hkey] at h
          simp only [Option.some.injEq, Prod.mk.injEq] at h
          exact Or.inr (Or.inr (Or.inl ⟨cur, rfl, hkey, h.2.symm, h.1.symm⟩))
        · rw [ht_insert_collision value hi hitem hkey] at h
          cases hchain : t.overflow_buckets[i]? with
          | none => simp [handle_collision, hchain] at h
          | some head =>
            rw [handle_collision_chain _ hchain] at h
            cases hlist : linkedlist_insert head (create_item key value) with
            | none => simp [hlist] at h
            | some list =>
              simp only [hlist, Option.map_some', Option.some.injEq, Prod.mk.injEq] at h
              exact Or.inr (Or.inr (Or.inr
                ⟨cur, head, list, rfl, hkey, rfl, hlist, h.2.symm, h.1.symm⟩))

theorem ht_delete_cases {cap : Nat} {t t1 : HashTable} {key : CString}
    (h : ht_delete cap t key = some t1) :
    ∃ i, ht_index cap key = some i ∧
      ((t.items[i]? = some none ∧ t1 = t) ∨
       (∃ item, t.items[i]? = some (some item) ∧
          t.overflow_buckets[i]? = some LinkedList.null ∧ item.key = key ∧
          t1 = { t with items := t.items.set i none, count := t.count - 1 }) ∨
       (∃ item, t.items[i]? = some (some item) ∧
          t.overflow_buckets[i]? = some LinkedList.null ∧ item.key ≠ key ∧ t1 = t) ∨
       (∃ item it next, t.items[i]? = some (some item) ∧
          t.overflow_buckets[i]? = some (LinkedList.node it next) ∧ item.key = key ∧
          t1 = { t with
                 items := t.items.set i (some (create_item it.key it.value))
                 overflow_buckets := t.overflow_buckets.set i next }) ∨
       (∃ item it next list, t.items[i]? = some (some item) ∧
          t.overflow_buckets[i]? = some (LinkedList.node it next) ∧ item.key ≠ key ∧
          t1 = { t with overflow_buckets := t.overflow_buckets.set i list })) := by
  cases hi : ht_index cap key with
  | none => simp [ht_delete, hi] at h
  | some i =>
    refine ⟨i, rfl, ?_⟩
    cases hitem : t.items[i]? with
    | none => simp [ht_delete, hi, hitem] at h
    | some slot =>
      cases hchain : t.overflow_buckets[i]? with
      | none => cases slot <;> simp [ht_delete, hi, hitem, hchain] at h
      | some head =>
        cases slot with
        | none =>
          rw [ht_delete_empty hi hitem hchain] at h
          exact Or.inl ⟨rfl, (Option.some.inj h).symm⟩
        | some item =>
          cases head with
          | null =>
            by_cases hkey : item.key = key
            · rw [ht_delete_single hi hitem hchain hkey] at h
              exact Or.inr (Or.inl ⟨item, rfl, rfl, hkey, (Option.some.inj h).symm⟩)
            · rw [ht_delete_other_null hi hitem hchain hkey] at h
              exact Or.inr (Or.inr (Or.inl
                ⟨item, rfl, rfl, hkey, (Option.some.inj h).symm⟩))
          | freed => simp [ht_delete, hi, hitem, hchain] at h
          | node it next =>
            by_cases hkey : item.key = key
            · rw [ht_delete_promote hi hitem hchain hkey] at h
              exact Or.inr (Or.inr (Or.inr (Or.inl
                ⟨item, it, next, rfl, rfl, hkey, (Option.some.inj h).symm⟩)))
            · refine Or.inr (Or.inr (Or.inr (Or.inr
                ⟨item, it, next, ?_⟩)))
              by_cases hhead : it.key = key
              · rw [ht_delete_head hi hitem hchain hkey hhead] at h
                cases hfree : free_linkedlist (LinkedList.node it next) with
                | none => simp [hfree] at h
                | some u =>
                  simp only [hfree, Option.map_some', Option.some.injEq] at h
                  exact ⟨LinkedList.null, rfl, rfl, hkey, h.symm⟩
              · rw [ht_delete_deeper hi hitem hchain hkey hhead] at h
                cases hloop : ht_delete_loop key next with
                | none => simp [hloop] at h
                | some rest =>
                  simp only [hloop, Option.map_some', Option.some.injEq] at h
                  exact ⟨LinkedList.node it rest, rfl, rfl, hkey, h.symm⟩

/-! ## Invariants of reachable tables -/

theorem run_reachable (cap : Nat) (calls : List Call) :
    ∀ {t t1 : HashTable}, Reachable cap t → run cap t calls = some t1 →
      Reachable cap t1 := by
  induction calls with
  | nil =>
    intro t t1 ht h
    simp only [run, Option.some.injEq] at h
    exact h ▸ ht
  | cons c calls ih =>
    intro t t1 ht h
    cases c with
    | insert key value =>
      cases hins : ht_insert cap t key value with
      | none => simp [run, hins] at h
      | some r =>
        obtain ⟨t2, full⟩ := r
        simp only [run, hins] at h
        exact ih (Reachable.insert key value ht hins) h
    | delete key =>
      cases hdel : ht_delete cap t key with
      | none => simp [run, hdel] at h
      | some t2 =>
        simp only [run, hdel] at h
        exact ih (Reachable.delete key ht hdel) h

theorem table_ab_ba_reachable : Reachable 5 table_ab_ba :=
  run_reachable 5 [Call.insert [97, 98] [49], Call.insert [98, 97] [50]]
    (Reachable.create 5) (by decide)

theorem occupied_slots_replicate (n : Nat) :
    occupied_slots (List.replicate n none) = 0 := by
  induction n with
  | zero => rfl
  | succ n ih => simpa [List.replicate, occupied_slots] using ih

theorem occupied_slots_set (l : List (Option Ht_item)) :
    ∀ (i : Nat) (old new : Option Ht_item), l[i]? = some old →
      occupied_slots (l.set i new) + (if old.isSome then 1 else 0) =
        occupied_slots l + (if new.isSome then 1 else 0) := by
  induction l with
  | nil => intro i old new h; simp at h
  | cons x l ih =>
    intro i old new h
    cases i with
    | zero =>
      simp only [List.getElem?_cons_zero, Option.some.injEq] at h
      subst h
      cases x <;> cases new <;> simp [occupied_slots]
    | succ i =>
      simp only [List.getElem?_cons_succ] at h
      have := ih i old new h
      cases x <;> simp only [List.set, occupied_slots] <;> omega

theorem reachable_count (cap : Nat) (t : HashTable) (h : Reachable cap t) :
    t.count = (occupied_slots t.items : Int) := by
  induction h with
  | create size => simp [create_table, occupied_slots_replicate]
  | insert key value _ hins ih =>
    obtain ⟨i, -, hc⟩ := ht_insert_cases hins
    rcases hc with ⟨-, -, rfl, -⟩ | ⟨hitem, -, -, rfl⟩ | ⟨cur, hitem, -, -, rfl⟩ |
      ⟨cur, head, list, -, -, -, -, -, rfl⟩
    · exact ih
    · have := occupied_slots_set _ i none (some (create_item key value)) hitem
      simp only [Option.isSome_none, Option.isSome_some] at this
      simp only [ih]
      simp at this
      omega
    · have := occupied_slots_set _ i (some cur) (some { cur with value := value }) hitem
      simp only [Option.isSome_some] at this
      simp only [ih]
      simp at this
      omega
    · exact ih
  | delete key _ hdel ih =>
    obtain ⟨i, -, hc⟩ := ht_delete_cases hdel
    rcases hc with ⟨-, rfl⟩ | ⟨item, hitem, -, -, rfl⟩ | ⟨item, -, -, -, rfl⟩ |
      ⟨item, it, next, hitem, -, -, rfl⟩ | ⟨item, it, next, list, -, -, -, rfl⟩
    · exact ih
    · have := occupied_slots_set _ i (some item) none hitem
      simp only [ih]
      simp at this
      omega
    · exact ih
    · have := occupied_slots_set _ i (some item) (some (create_item it.key it.value)) hitem
      simp only [ih]
      simp at this
      omega
    · exact ih

/-- C8. Count invariant: in every table reachable from `create_table` by
`ht_insert` and `ht_delete` calls with defined behaviour (all subscripts in
range), `count` is the number of non-empty primary slots; the overflow chains
do not enter the number. -/
theorem count_invariant (cap : Nat) (t : HashTable) (h : Reachable cap t) :
    t.count = (occupied_slots t.items : Int) :=
  reachable_count cap t h

theorem count_invariant_witness :
    Reachable 5 table_ab_ba ∧
      table_ab_ba.count = (occupied_slots table_ab_ba.items : Int) :=
  ⟨table_ab_ba_reachable, count_invariant 5 table_ab_ba table_ab_ba_reachable⟩

theorem reachable_empty_chain (cap : Nat) (t : HashTable) (h : Reachable cap t)
    (j : Nat) (hempty : t.items[j]? = some none) :
    t.overflow_buckets[j]? = some LinkedList.null := by
  induction h generalizing j with
  | create size =>
    have hj : j < size.toNat := by
      by_contra hge
      simp [create_table, List.getElem?_replicate, hge] at hempty
    simp [create_table, create_overflow_buckets, List.getElem?_replicate, hj]
  | insert key value _ hins ih =>
    obtain ⟨i, -, hc⟩ := ht_insert_cases hins
    rcases hc with ⟨-, -, rfl, -⟩ | ⟨hitem, -, -, rfl⟩ | ⟨cur, hitem, -, -, rfl⟩ |
      ⟨cur, head, list, hitem, -, -, -, -, rfl⟩
    · exact ih j hempty
    · by_cases hij : i = j
      · subst hij
        rw [getElem?_set_same _ hitem] at hempty
        cases hempty
      · rw [List.getElem?_set_ne hij] at hempty
        exact ih j hempty
    · by_cases hij : i = j
      · subst hij
        rw [getElem?_set_same _ hitem] at hempty
        cases hempty
      · rw [List.getElem?_set_ne hij] at hempty
        exact ih j hempty
    · by_cases hij : i = j
      · subst hij
        rw [hitem] at hempty
        cases hempty
      · show (List.set _ i list)[j]? = _
        rw [List.getElem?_set_ne hij]
        exact ih j hempty
  | delete key _ hdel ih =>
    obtain ⟨i, -, hc⟩ := ht_delete_cases hdel
    rcases hc with ⟨-, rfl⟩ | ⟨item, hitem, hchain, -, rfl⟩ | ⟨item, -, -, -, rfl⟩ |
      ⟨item, it, next, hitem, hchain, -, rfl⟩ | ⟨item, it, next, list, hitem, -, -, rfl⟩
    · exact ih j hempty
    · by_cases hij : i = j
      · subst hij
        exact hchain
      · rw [List.getElem?_set_ne hij] at hempty
        exact ih j hempty
    · exact ih j hempty
    · by_cases hij : i = j
      · subst hij
        rw [getElem?_set_same _ hitem] at hempty
        cases hempty
      · rw [List.getElem?_set_ne hij] at hempty
        show (List.set _ i next)[j]? = _
        rw [List.getElem?_set_ne hij]
        exact ih j hempty
    · by_cases hij : i = j
      · subst hij
        rw [hitem] at hempty
        cases hempty
      · show (List.set _ i list)[j]? = _
        rw [List.getElem?_set_ne hij]
        exact ih j hempty

/-- C9. Chain needs a primary occupant: in every table reachable from
`create_table` by `ht_insert` and `ht_delete` calls, an index whose primary
slot is empty has an empty (`NULL`) overflow chain. -/
theorem chain_needs_primary (cap : Nat) (t : HashTable) (h : Reachable cap t)
    (j : Nat) (hempty : t.items[j]? = some none) :
    t.overflow_buckets[j]? = some LinkedList.null :=
  reachable_empty_chain cap t h j hempty

theorem chain_needs_primary_witness :
    (Reachable 5 table_ab_ba ∧ table_ab_ba.items[1]? = some none) ∧
      table_ab_ba.overflow_buckets[1]? = some LinkedList.null :=
  ⟨⟨table_ab_ba_reachable, by decide⟩,
   chain_needs_primary 5 table_ab_ba table_ab_ba_reachable 1 (by decide)⟩

/-! ## Deleting a key that is not stored -/

theorem set_getElem?_same {α : Type} (l : List α) :
    ∀ (i : Nat) (a : α), l[i]? = some a → l.set i a = l := by
  induction l with
  | nil => intro i a h; simp at h
  | cons x l ih =>
    intro i a h
    cases i with
    | zero =>
      simp only [List.getElem?_cons_zero, Option.some.injEq] at h
      simp [h]
    | succ i =>
      simp only [List.getElem?_cons_succ] at h
      simp [List.set, ih i a h]

theorem ht_delete_loop_absent (key : CString) (chain : LinkedList)
    (hterm : chain.terminated = true) (hnodes : ∀ it ∈ chain.nodes, it.key ≠ key) :
    ht_delete_loop key chain = some chain := by
  induction chain with
  | null => rfl
  | freed => simp [LinkedList.terminated] at hterm
  | node item next ih =>
    simp only [LinkedList.nodes, List.mem_cons, forall_eq_or_imp] at hnodes
    simp only [LinkedList.terminated] at hterm
    simp [ht_delete_loop, hnodes.1, ih hterm hnodes.2]

/-- On a chain that is a `NULL`-terminated list of live nodes, delete of an
absent key is a no-op: when `key` is neither the key of the primary entry at
its index (the slot may be empty) nor the key of any node of the overflow
chain there, `ht_delete(key)` returns the table as it was. -/
theorem delete_absent_noop (cap : Nat) (t : HashTable) (key : CString) (i : Nat)
    (slot : Option Ht_item) (head : LinkedList)
    (hi : ht_index cap key = some i) (hitem : t.items[i]? = some slot)
    (hchain : t.overflow_buckets[i]? = some head)
    (hprimary : ∀ item, slot = some item → item.key ≠ key)
    (hterm : head.terminated = true)
    (hnodes : ∀ it ∈ head.nodes, it.key ≠ key) :
    ht_delete cap t key = some t := by
  cases slot with
  | none => exact ht_delete_empty hi hitem hchain
  | some item =>
    have hkey := hprimary item rfl
    cases head with
    | null => exact ht_delete_other_null hi hitem hchain hkey
    | freed => simp [LinkedList.terminated] at hterm
    | node it next =>
      simp only [LinkedList.nodes, List.mem_cons, forall_eq_or_imp] at hnodes
      simp only [LinkedList.terminated] at hterm
      rw [ht_delete_deeper hi hitem hchain hkey hnodes.1,
        ht_delete_loop_absent key next hterm hnodes.2]
      simp only [Option.map_some', set_getElem?_same _ i _ hchain]

theorem delete_absent_noop_witness :
    (ht_index 5 [100] = some 0 ∧
      table_ab_ba.items[0]? = some (some (create_item [97, 98] [49])) ∧
      table_ab_ba.overflow_buckets[0]? =
        some (LinkedList.node (create_item [98, 97] [50]) LinkedList.null) ∧
      (LinkedList.node (create_item [98, 97] [50]) LinkedList.null).terminated = true) ∧
    ht_delete 5 table_ab_ba [100] = some table_ab_ba :=
  ⟨by decide,
   delete_absent_noop 5 table_ab_ba [100] 0 (some (create_item [97, 98] [49]))
    (LinkedList.node (create_item [98, 97] [50]) LinkedList.null)
    (by decide) (by decide) (by decide) (by decide) (by decide) (by decide)⟩

/-! ## A second insert of a chained key, and deletion inside a chain -/

theorem linkedlist_insert_terminated (item : Ht_item) (head : LinkedList)
    (hterm : head.terminated = true) :
    ∃ list, linkedlist_insert head item = some list ∧
      list.nodes = head.nodes ++ [item] ∧ list.terminated = true := by
  induction head with
  | null => exact ⟨_, rfl, rfl, rfl⟩
  | freed => simp [LinkedList.terminated] at hterm
  | node it next ih =>
    simp only [LinkedList.terminated] at hterm
    obtain ⟨list, hlist, hnodes, hlterm⟩ := ih hterm
    refine ⟨LinkedList.node it list, ?_, ?_, ?_⟩
    · simp [linkedlist_insert, hlist]
    · simp [LinkedList.nodes, hnodes]
    · simpa [LinkedList.terminated] using hlterm

theorem reach_chain_of_two (cap : Nat) (size : Int) (a b c va vb vc : CString)
    (i : Nat) (ha : ht_index cap a = some i) (hb : ht_index cap b = some i)
    (hc : ht_index cap c = some i) (hi : (i : Int) < size)
    (hab : a ≠ b) (hac : a ≠ c) :
    ∃ t2 t3, Reachable cap t2 ∧ ht_search cap t2 b = some (some vb) ∧
      ht_insert cap t2 c vc = some (t3, false) ∧
      t3.items[i]? = some (some (create_item a va)) ∧
      t3.overflow_buckets[i]? =
        some (LinkedList.node (create_item b vb)
          (LinkedList.node (create_item c vc) LinkedList.null)) := by
  have hitem := create_table_items hi
  have hchain := create_table_overflow_buckets hi
  have hcount : (create_table size).count < (create_table size).size := by
    show (0 : Int) < size
    omega
  obtain ⟨t1, t2, h1, h2, hitem2, hchain2, -, hsb⟩ :=
    insert_two_colliding cap (create_table size) a b va vb i ha hb hab hitem hchain hcount
  have hreach : Reachable cap t2 :=
    Reachable.insert b vb (Reachable.insert a va (Reachable.create size) h1) h2
  have h3 := @ht_insert_chain cap t2 c i _ _
    (LinkedList.node (create_item b vb)
      (LinkedList.node (create_item c vc) LinkedList.null))
    vc hc hitem2 hac hchain2 rfl
  exact ⟨t2, _, hreach, hsb, h3, hitem2, getElem?_set_same _ hchain2⟩

/-- C1. Round trip fails for a key already in an overflow chain: from a fresh
table, after `ht_insert(a, va)` and `ht_insert(b, v1)` with `a`, `b` distinct
keys of the same in-range index, the call `ht_insert(b, v2)` does not take the
"Hash Table is full" branch, yet `ht_search(b)` on the resulting table still
returns `v1`, not `v2`: the chain now holds `(b, v1)` followed by `(b, v2)`. -/
theorem round_trip_stale_in_chain (cap : Nat) (size : Int) (a b va v1 v2 : CString)
    (i : Nat) (ha : ht_index cap a = some i) (hb : ht_index cap b = some i)
    (hi : (i : Int) < size) (hab : a ≠ b) :
    ∃ t t1, Reachable cap t ∧ ht_insert cap t b v2 = some (t1, false) ∧
      t1.overflow_buckets[i]? =
        some (LinkedList.node (create_item b v1)
          (LinkedList.node (create_item b v2) LinkedList.null)) ∧
      ht_search cap t1 b = some (some v1) ∧
      (v1 ≠ v2 → ht_search cap t1 b ≠ some (some v2)) := by
  obtain ⟨t2, t3, hreach, -, h3, hitem3, hchain3⟩ :=
    reach_chain_of_two cap size a b b va v1 v2 i ha hb hb hi hab hab
  have hsearch : ht_search cap t3 b = some (some v1) := by
    rw [ht_search_item hb hitem3 hchain3]
    simp [ht_search_loop, create_item, hab]
  refine ⟨t2, t3, hreach, h3, hchain3, hsearch, ?_⟩
  intro hne heq
  rw [hsearch] at heq
  exact hne (Option.some.inj (Option.some.inj heq))

theorem round_trip_stale_in_chain_witness :
    (ht_index 5 [97, 98] = some 0 ∧ ht_index 5 [98, 97] = some 0 ∧
      ((0 : Nat) : Int) < 5 ∧ ([97, 98] : CString) ≠ [98, 97]) ∧
    ∃ t t1, Reachable 5 t ∧ ht_insert 5 t [98, 97] [51] = some (t1, false) ∧
      t1.overflow_buckets[0]? =
        some (LinkedList.node (create_item [98, 97] [50])
          (LinkedList.node (create_item [98, 97] [51]) LinkedList.null)) ∧
      ht_search 5 t1 [98, 97] = some (some [50]) ∧
      (([50] : CString) ≠ [51] → ht_search 5 t1 [98, 97] ≠ some (some [51])) :=
  ⟨by decide,
   round_trip_stale_in_chain 5 5 [97, 98] [98, 97] [49] [50] [51] 0
    (by decide) (by decide) (by decide) (by decide)⟩

/-- C2. Delete then search fails for a key held deeper in a chain: from a
fresh table, after inserting three distinct keys `a`, `b`, `c` of the same
in-range index, `ht_search(c)` returns `vc`; `ht_delete(c)` then releases the
node of `c` while the node of `b` still points to it, and `ht_search(c)` on
the resulting table reads the released node instead of returning `NULL`. -/
theorem delete_then_search_dangling (cap : Nat) (size : Int)
    (a b c va vb vc : CString) (i : Nat)
    (ha : ht_index cap a = some i) (hb : ht_index cap b = some i)
    (hc : ht_index cap c = some i) (hi : (i : Int) < size)
    (hab : a ≠ b) (hac : a ≠ c) (hbc : b ≠ c) :
    ∃ t t1, Reachable cap t ∧ ht_search cap t c = some (some vc) ∧
      ht_delete cap t c = some t1 ∧
      t1.overflow_buckets[i]? =
        some (LinkedList.node (create_item b vb) LinkedList.freed) ∧
      ht_search cap t1 c = none := by
  obtain ⟨t2, t3, hreach, -, h3, hitem3, hchain3⟩ :=
    reach_chain_of_two cap size a b c va vb vc i ha hb hc hi hab hac
  have hdel := ht_delete_deeper hc hitem3 hchain3
    (show (create_item a va).key ≠ c from hac) (show (create_item b vb).key ≠ c from hbc)
  have hloop : ht_delete_loop c (LinkedList.node (create_item c vc) LinkedList.null) =
      some LinkedList.freed := by
    simp [ht_delete_loop, create_item]
  rw [hloop, Option.map_some'] at hdel
  have hchain4 := getElem?_set_same
    (LinkedList.node (create_item b vb) LinkedList.freed) hchain3
  refine ⟨t3, _, Reachable.insert c vc hreach h3, ?_, hdel, hchain4, ?_⟩
  · rw [ht_search_item hc hitem3 hchain3]
    simp [ht_search_loop, create_item, hac, hbc]
  · rw [@ht_search_item cap
      { t3 with
        overflow_buckets :=
          t3.overflow_buckets.set i (LinkedList.node (create_item b vb) LinkedList.freed) }
      c i _ _ hc hitem3 hchain4]
    simp [ht_search_loop, create_item, hac, hbc]

theorem delete_then_search_dangling_witness :
    (ht_index 5 [97, 98, 99] = some 4 ∧ ht_index 5 [97, 99, 98] = some 4 ∧
      ht_index 5 [98, 97, 99] = some 4 ∧ ((4 : Nat) : Int) < 5 ∧
      ([97, 98, 99] : CString) ≠ [97, 99, 98] ∧
      ([97, 98, 99] : CString) ≠ [98, 97, 99] ∧
      ([97, 99, 98] : CString) ≠ [98, 97, 99]) ∧
    ∃ t t1, Reachable 5 t ∧ ht_search 5 t [98, 97, 99] = some (some [51]) ∧
      ht_delete 5 t [98, 97, 99] = some t1 ∧
      t1.overflow_buckets[4]? =
        some (LinkedList.node (create_item [97, 99, 98] [50]) LinkedList.freed) ∧
      ht_search 5 t1 [98, 97, 99] = none :=
  ⟨by decide,
   delete_then_search_dangling 5 5 [97, 98, 99] [97, 99, 98] [98, 97, 99]
    [49] [50] [51] 4 (by decide) (by decide) (by decide) (by decide)
    (by decide) (by decide) (by decide)⟩

/-- C6. Key uniqueness is broken by a second insert of a chained key: from a
fresh table, for distinct keys `a`, `b` of the same in-range index, the calls
`ht_insert(a, va)`, `ht_insert(b, v1)`, `ht_insert(b, v2)` reach a table whose
entries at that index are `a` in the primary slot and two chain nodes with
key `b`. -/
theorem key_uniqueness_broken (cap : Nat) (size : Int) (a b va v1 v2 : CString)
    (i : Nat) (ha : ht_index cap a = some i) (hb : ht_index cap b = some i)
    (hi : (i : Int) < size) (hab : a ≠ b) :
    ∃ t, Reachable cap t ∧ stored_keys t i = [a, b, b] ∧
      ¬ (stored_keys t i).Nodup := by
  obtain ⟨t2, t3, hreach, -, h3, hitem3, hchain3⟩ :=
    reach_chain_of_two cap size a b b va v1 v2 i ha hb hb hi hab hab
  have hkeys : stored_keys t3 i = [a, b, b] := by
    simp [stored_keys, hitem3, hchain3, LinkedList.nodes, create_item]
  refine ⟨t3, Reachable.insert b v2 hreach h3, hkeys, ?_⟩
  rw [hkeys]
  simp

theorem key_uniqueness_broken_witness :
    (ht_index 5 [97, 98] = some 0 ∧ ht_index 5 [98, 97] = some 0 ∧
      ((0 : Nat) : Int) < 5 ∧ ([97, 98] : CString) ≠ [98, 97]) ∧
    ∃ t, Reachable 5 t ∧ stored_keys t 0 = [[97, 98], [98, 97], [98, 97]] ∧
      ¬ (stored_keys t 0).Nodup :=
  ⟨by decide,
   key_uniqueness_broken 5 5 [97, 98] [98, 97] [49] [50] [51] 0
    (by decide) (by decide) (by decide) (by decide)⟩

/-! ## The capacity check -/

theorem table_full5_reachable : Reachable 5 table_full5 :=
  run_reachable 5
    [Call.insert [97] [49], Call.insert [98] [50], Call.insert [99] [51],
      Call.insert [100] [52], Call.insert [101] [53]]
    (Reachable.create 5) (by decide)

/-- C3, as stated, fails: the table of capacity 5 filled with the
non-colliding keys `"a"` to `"e"` is reachable and has `count == size`, the
new key `"f"` differs from the key `"a"` of its primary slot, and
`ht_insert("f", "6")` does not return the table unchanged with the
"Hash Table is full" report. -/
theorem capacity_bound_counterexample :
    ¬ (∀ (t : HashTable) (k v : CString), Reachable 5 t → t.count = t.size →
        (∀ i item, ht_index 5 k = some i → t.items[i]? = some (some item) →
          item.key ≠ k) →
        ht_insert 5 t k v = some (t, true)) := by
  intro h
  have hfull := h table_full5 [102] [54] table_full5_reachable (by decide)
    (by
      intro i item hi hitem
      have h2 : ht_index 5 [102] = some 2 := by decide
      rw [h2] at hi
      cases hi
      have h3 : table_full5.items[2]? = some (some (create_item [97] [49])) := by decide
      rw [h3] at hitem
      cases hitem
      decide)
  revert hfull
  decide

/-- C3, amended: in a table with `count == size`, `ht_insert(k, v)` takes the
"Hash Table is full" branch and leaves the whole table unchanged when the
primary slot at the index of `k` is empty; when that slot holds an entry with
a different key and the chain there is a `NULL`-terminated list, the insert is
not rejected: the new entry is appended to the overflow chain of the slot,
the primary slots and `count` staying as they were. -/
theorem capacity_bound_amended (cap : Nat) (t : HashTable) (k v : CString) (i : Nat)
    (hi : ht_index cap k = some i) (hcount : t.count = t.size) :
    (t.items[i]? = some none → ht_insert cap t k v = some (t, true)) ∧
    (∀ cur head, t.items[i]? = some (some cur) → cur.key ≠ k →
      t.overflow_buckets[i]? = some head → head.terminated = true →
      ∃ list, list.nodes = head.nodes ++ [create_item k v] ∧
        list.terminated = true ∧
        ht_insert cap t k v =
          some ({ t with overflow_buckets := t.overflow_buckets.set i list }, false)) := by
  refine ⟨fun hitem => ht_insert_full v hi hitem hcount, ?_⟩
  intro cur head hitem hkey hchain hterm
  obtain ⟨list, hlist, hnodes, hlterm⟩ :=
    linkedlist_insert_terminated (create_item k v) head hterm
  exact ⟨list, hnodes, hlterm, ht_insert_chain v hi hitem hkey hchain hlist⟩

theorem capacity_bound_amended_witness :
    (ht_index 5 [102] = some 2 ∧ table_full5.count = table_full5.size ∧
      table_full5.items[2]? = some (some (create_item [97] [49])) ∧
      table_full5.overflow_buckets[2]? = some LinkedList.null) ∧
    ∃ list, list.nodes = LinkedList.null.nodes ++ [create_item [102] [54]] ∧
      list.terminated = true ∧
      ht_insert 5 table_full5 [102] [54] =
        some ({ table_full5 with
                overflow_buckets := table_full5.overflow_buckets.set 2 list }, false) :=
  ⟨by decide,
   (capacity_bound_amended 5 table_full5 [102] [54] 2 (by decide) (by decide)).2
    (create_item [97] [49]) LinkedList.null (by decide) (by decide) (by decide)
    (by decide)⟩

/-! ## The range of the hash -/

/-- C7. The hash is reduced by `HT_CAPACITY`, not by the size of the table:
for `HT_CAPACITY >= 2`, the key made of the one character of code 1 hashes to
1, which is not below the size of `create_table(1)`, and `ht_insert` and
`ht_search` with that key subscript the arrays outside their bounds. -/
theorem hash_index_exceeds_size (cap : Nat) (hcap : 2 ≤ cap) :
    hash_function cap [1] = some 1 ∧ ¬ ((1 : Int) < (create_table 1).size) ∧
      ht_insert cap (create_table 1) [1] [49] = none ∧
      ht_search cap (create_table 1) [1] = none := by
  have hmod : 1 % cap = 1 := Nat.mod_eq_of_lt (by omega)
  have hloop : hash_function_loop [1] 0 0 = some 1 := by decide
  have hhash : hash_function cap [1] = some 1 := by
    have hne : cap ≠ 0 := by omega
    simp [hash_function, hne, hloop, hmod]
  have hidx : ht_index cap [1] = some 1 := by
    have h1 : int_of_ulong 1 = 1 := by decide
    simp [ht_index, hhash, h1]
  refine ⟨hhash, by decide, ?_, ?_⟩
  · simp [ht_insert, hidx, create_table]
  · simp [ht_search, hidx, create_table]

theorem hash_index_exceeds_size_witness :
    (2 ≤ 50000) ∧
    (hash_function 50000 [1] = some 1 ∧ ¬ ((1 : Int) < (create_table 1).size) ∧
      ht_insert 50000 (create_table 1) [1] [49] = none ∧
      ht_search 50000 (create_table 1) [1] = none) :=
  ⟨by decide, hash_index_exceeds_size 50000 (by decide)⟩

/-! ## A second insert of the same key -/

theorem linkedlist_insert_some_terminated (item : Ht_item) :
    ∀ (head list : LinkedList), linkedlist_insert head item = some list →
      list.terminated = true := by
  intro head
  induction head with
  | null =>
    intro list h
    simp only [linkedlist_insert, Option.some.injEq] at h
    subst h
    rfl
  | freed => intro list h; simp [linkedlist_insert] at h
  | node it next ih =>
    intro list h
    cases hnext : linkedlist_insert next item with
    | none => simp [linkedlist_insert, hnext] at h
    | some rest =>
      simp only [linkedlist_insert, hnext, Option.map_some', Option.some.injEq] at h
      subst h
      simpa [LinkedList.terminated] using ih rest hnext

/-- C11. Update idempotence of `count`: whenever `ht_insert(k, v1)` returns
(into the primary slot, into the overflow chain, as an update, or rejected
with "Hash Table is full"), a following `ht_insert(k, v2)` returns too and
leaves `count` at the value it had after the first insert. -/
theorem update_keeps_count (cap : Nat) (t t1 : HashTable) (k v1 v2 : CString)
    (full1 : Bool) (h1 : ht_insert cap t k v1 = some (t1, full1)) :
    ∃ t2 full2, ht_insert cap t1 k v2 = some (t2, full2) ∧ t2.count = t1.count := by
  obtain ⟨i, hi, hc⟩ := ht_insert_cases h1
  rcases hc with ⟨hitem, hcount, rfl, -⟩ | ⟨hitem, -, -, rfl⟩ | ⟨cur, hitem, hkey, -, rfl⟩ |
    ⟨cur, head, list, hitem, hkey, hchain, hlist, -, rfl⟩
  · exact ⟨_, _, ht_insert_full v2 hi hitem hcount, rfl⟩
  · have hitem1 := getElem?_set_same (some (create_item k v1)) hitem
    exact ⟨_, _, @ht_insert_update cap
      { t with
        items := t.items.set i (some (create_item k v1))
        count := t.count + 1 }
      k i _ v2 hi hitem1 rfl, rfl⟩
  · have hitem1 := getElem?_set_same (some { cur with value := v1 }) hitem
    exact ⟨_, _, @ht_insert_update cap
      { t with items := t.items.set i (some { cur with value := v1 }) }
      k i _ v2 hi hitem1 hkey, rfl⟩
  · have hchain1 := getElem?_set_same list hchain
    obtain ⟨list2, hlist2, -, -⟩ := linkedlist_insert_terminated (create_item k v2) list
      (linkedlist_insert_some_terminated _ head list hlist)
    exact ⟨_, _, @ht_insert_chain cap
      { t with overflow_buckets := t.overflow_buckets.set i list }
      k i cur list list2 v2 hi hitem hkey hchain1 hlist2, rfl⟩

theorem update_keeps_count_witness :
    ht_insert 5 table_ab_ba [100] [52] =
      some ({ table_ab_ba with
              overflow_buckets :=
                [LinkedList.node (create_item [98, 97] [50])
                   (LinkedList.node (create_item [100] [52]) LinkedList.null),
                 LinkedList.null, LinkedList.null, LinkedList.null,
                 LinkedList.null] }, false) ∧
    ∃ t2 full2,
      ht_insert 5
        { table_ab_ba with
          overflow_buckets :=
            [LinkedList.node (create_item [98, 97] [50])
               (LinkedList.node (create_item [100] [52]) LinkedList.null),
             LinkedList.null, LinkedList.null, LinkedList.null,
             LinkedList.null] } [100] [53] = some (t2, full2) ∧
      t2.count = table_ab_ba.count :=
  ⟨by decide,
   update_keeps_count 5 table_ab_ba _ [100] [52] [53] false (by decide)⟩

/-! ## The rejected insert -/

/-- C13. Atomicity of a rejected insert: in a table whose primary slot at the
index of `k` is empty and whose `count` equals `size`, `ht_insert(k, v)`
returns the table as it was (all primary slots, all overflow chains, `count`)
and reports "Hash Table is full". -/
theorem rejected_insert_atomic (cap : Nat) (t : HashTable) (k v : CString) (i : Nat)
    (hi : ht_index cap k = some i) (hitem : t.items[i]? = some none)
    (hcount : t.count = t.size) :
    ht_insert cap t k v = some (t, true) :=
  ht_insert_full v hi hitem hcount

theorem rejected_insert_atomic_witness :
    (ht_index 1 [97] = some 0 ∧ table_counted_full.items[0]? = some none ∧
      table_counted_full.count = table_counted_full.size) ∧
    ht_insert 1 table_counted_full [97] [49] = some (table_counted_full, true) :=
  ⟨by decide,
   rejected_insert_atomic 1 table_counted_full [97] [49] 0
    (by decide) (by decide) (by decide)⟩

/-! ## The usage check of `main` -/

/-- C14. CLI usage check: `main` returns `EXIT_FAILURE`, a non-zero status,
after the usage report exactly when `argc < 4`, and returns `EXIT_SUCCESS`
without a report exactly when `argc >= 4`. -/
theorem main_usage_check (argc : Int) :
    ((main argc).2 = EXIT_FAILURE ↔ argc < 4) ∧
    ((main argc).2 = EXIT_SUCCESS ↔ 4 ≤ argc) ∧
    ((main argc).2 ≠ 0 ↔ argc < 4) ∧
    ((main argc).1 = [Report.logger_error_usage, Report.print_usage] ↔ argc < 4) := by
  by_cases h : argc < 4
  · have h4 : ¬ 4 ≤ argc := by omega
    simp [main, h, h4, EXIT_FAILURE, EXIT_SUCCESS]
  · have h4 : 4 ≤ argc := by omega
    simp [main, h, h4, EXIT_FAILURE, EXIT_SUCCESS]

/-! ## Search against its reference definition -/

theorem ht_search_loop_found (key : CString) (head : LinkedList) :
    ∀ (item : Ht_item) (v : CString),
      ht_search_spec (some item) head.nodes key = some v →
      ht_search_loop key item head = some (some v) := by
  induction head with
  | null =>
    intro item v h
    by_cases hk : item.key = key <;>
      simp_all [ht_search_spec, ht_search_loop, LinkedList.nodes]
  | freed =>
    intro item v h
    by_cases hk : item.key = key <;>
      simp_all [ht_search_spec, ht_search_loop, LinkedList.nodes]
  | node it next ih =>
    intro item v h
    by_cases hk : item.key = key
    · simp_all [ht_search_spec, ht_search_loop, LinkedList.nodes]
    · have h2 : ht_search_spec (some it) next.nodes key = some v := by
        simpa [ht_search_spec, LinkedList.nodes, hk] using h
      simpa [ht_search_loop, hk] using ih it v h2

theorem ht_search_loop_terminated (key : CString) (head : LinkedList) :
    ∀ (item : Ht_item), head.terminated = true →
      ht_search_loop key item head =
        some (ht_search_spec (some item) head.nodes key) := by
  induction head with
  | null =>
    intro item _
    by_cases hk : item.key = key <;>
      simp [ht_search_spec, ht_search_loop, LinkedList.nodes, hk]
  | freed => intro item h; simp [LinkedList.terminated] at h
  | node it next ih =>
    intro item h
    simp only [LinkedList.terminated] at h
    by_cases hk : item.key = key
    · simp [ht_search_spec, ht_search_loop, LinkedList.nodes, hk]
    · have h2 := ih it h
      simp only [ht_search_spec] at h2
      simp [ht_search_spec, ht_search_loop, LinkedList.nodes, hk, h2]

/-- Where search agrees with its reference definition: with `i` the index of
`key`, `ht_search(key)` returns `NULL` when `items[i]` is empty; it returns the
value of the first entry with that key in the sequence primary entry, then
chain nodes in order, whenever there is one; and on a `NULL`-terminated chain
of live nodes it returns exactly what the reference definition gives. -/
theorem search_refines_reference (cap : Nat) (t : HashTable) (key : CString)
    (i : Nat) (slot : Option Ht_item) (head : LinkedList)
    (hi : ht_index cap key = some i) (hitem : t.items[i]? = some slot)
    (hchain : t.overflow_buckets[i]? = some head) :
    (slot = none → ht_search cap t key = some none) ∧
    (∀ v, ht_search_spec slot head.nodes key = some v →
      ht_search cap t key = some (some v)) ∧
    (head.terminated = true →
      ht_search cap t key = some (ht_search_spec slot head.nodes key)) := by
  cases slot with
  | none =>
    have h := ht_search_empty hi hitem hchain
    refine ⟨fun _ => h, ?_, ?_⟩
    · intro v hv
      simp [ht_search_spec] at hv
    · intro _
      simpa [ht_search_spec] using h
  | some item =>
    rw [ht_search_item hi hitem hchain]
    exact ⟨fun h => Option.noConfusion h, ht_search_loop_found key head item,
      ht_search_loop_terminated key head item⟩

theorem search_refines_reference_witness :
    (ht_index 5 [98, 97] = some 0 ∧
      table_ab_ba.items[0]? = some (some (create_item [97, 98] [49])) ∧
      table_ab_ba.overflow_buckets[0]? =
        some (LinkedList.node (create_item [98, 97] [50]) LinkedList.null) ∧
      (LinkedList.node (create_item [98, 97] [50]) LinkedList.null).terminated = true) ∧
    ht_search 5 table_ab_ba [98, 97] =
      some (ht_search_spec (some (create_item [97, 98] [49]))
        [create_item [98, 97] [50]] [98, 97]) :=
  ⟨by decide,
   (search_refines_reference 5 table_ab_ba [98, 97] 0
      (some (create_item [97, 98] [49]))
      (LinkedList.node (create_item [98, 97] [50]) LinkedList.null)
      (by decide) (by decide) (by decide)).2.2 (by decide)⟩

/-! ## The three ways `ht_delete` removes an entry at an occupied index -/

theorem table_four_reachable : Reachable 5 table_four :=
  run_reachable 5
    [Call.insert [97, 98, 99] [49], Call.insert [97, 99, 98] [50],
      Call.insert [98, 97, 99] [51], Call.insert [98, 99, 97] [52]]
    (Reachable.create 5) (by decide)

theorem ht_delete_loop_match (key : CString) (m : Ht_item) (tail : LinkedList)
    (hm : m.key = key) :
    ∀ (pre : List Ht_item), (∀ e ∈ pre, e.key ≠ key) →
      ht_delete_loop key (chain_of pre (LinkedList.node m tail)) =
        some (chain_of pre LinkedList.freed) := by
  intro pre
  induction pre with
  | nil => intro _; simp [chain_of, ht_delete_loop, hm]
  | cons e pre ih =>
    intro hpre
    simp only [List.mem_cons, forall_eq_or_imp] at hpre
    simp [chain_of, ht_delete_loop, hpre.1, ih hpre.2]

theorem chain_of_freed_terminated (pre : List Ht_item) :
    (chain_of pre LinkedList.freed).terminated = false := by
  induction pre with
  | nil => rfl
  | cons e pre ih => simpa [chain_of, LinkedList.terminated] using ih

/-- C15. Delete of a deeper chain node does not splice: when the primary key
and the key of the first chain node differ from `key` and the first later node
`m` with that key comes after the nodes `pre`, `ht_delete(key)` releases `m`
and leaves the node before it pointing to the released node. The chain at the
index becomes the first node, the nodes `pre` and a dangling pointer; the
nodes after `m` are no longer in it and the chain is not `NULL`-terminated. -/
theorem delete_deeper_leaves_dangling (cap : Nat) (t : HashTable) (key : CString)
    (i : Nat) (item it m : Ht_item) (pre : List Ht_item) (tail : LinkedList)
    (hi : ht_index cap key = some i) (hitem : t.items[i]? = some (some item))
    (hchain : t.overflow_buckets[i]? =
      some (LinkedList.node it (chain_of pre (LinkedList.node m tail))))
    (hkey : item.key ≠ key) (hhead : it.key ≠ key)
    (hpre : ∀ e ∈ pre, e.key ≠ key) (hm : m.key = key) :
    ht_delete cap t key =
      some { t with
        overflow_buckets :=
          t.overflow_buckets.set i
            (LinkedList.node it (chain_of pre LinkedList.freed)) } ∧
    (LinkedList.node it (chain_of pre LinkedList.freed)).terminated = false := by
  refine ⟨?_, ?_⟩
  · rw [ht_delete_deeper hi hitem hchain hkey hhead,
      ht_delete_loop_match key m tail hm pre hpre]
    rfl
  · simpa [LinkedList.terminated] using chain_of_freed_terminated pre

theorem delete_deeper_leaves_dangling_witness :
    (Reachable 5 table_four ∧ ht_index 5 [98, 97, 99] = some 4 ∧
      table_four.items[4]? = some (some (create_item [97, 98, 99] [49])) ∧
      table_four.overflow_buckets[4]? =
        some (LinkedList.node (create_item [97, 99, 98] [50])
          (chain_of []
            (LinkedList.node (create_item [98, 97, 99] [51])
              (LinkedList.node (create_item [98, 99, 97] [52]) LinkedList.null))))) ∧
    (ht_delete 5 table_four [98, 97, 99] =
      some { table_four with
        overflow_buckets :=
          table_four.overflow_buckets.set 4
            (LinkedList.node (create_item [97, 99, 98] [50])
              (chain_of [] LinkedList.freed)) } ∧
    (LinkedList.node (create_item [97, 99, 98] [50])
      (chain_of [] LinkedList.freed)).terminated = false) :=
  ⟨⟨table_four_reachable, by decide⟩,
   delete_deeper_leaves_dangling 5 table_four [98, 97, 99] 4
    (create_item [97, 98, 99] [49]) (create_item [97, 99, 98] [50])
    (create_item [98, 97, 99] [51]) []
    (LinkedList.node (create_item [98, 99, 97] [52]) LinkedList.null)
    (by decide) (by decide) (by decide) (by decide) (by decide) (by decide)
    (by decide)⟩

theorem free_linkedlist_terminated (chain : LinkedList)
    (hterm : chain.terminated = true) : free_linkedlist chain = some () := by
  induction chain with
  | null => rfl
  | freed => simp [LinkedList.terminated] at hterm
  | node item next ih =>
    simp only [LinkedList.terminated] at hterm
    simpa [free_linkedlist] using ih hterm

/-- On a chain that is a `NULL`-terminated list of live nodes, delete of the
chain head discards the whole chain: when the primary key at the index `i` of
`key` differs from `key` and the first chain node has that key,
`ht_delete(key)` sets the chain at `i` to `NULL` and changes nothing else. -/
theorem delete_chain_head_discards_chain (cap : Nat) (t : HashTable) (key : CString)
    (i : Nat) (item it : Ht_item) (next : LinkedList)
    (hi : ht_index cap key = some i) (hitem : t.items[i]? = some (some item))
    (hchain : t.overflow_buckets[i]? = some (LinkedList.node it next))
    (hkey : item.key ≠ key) (hhead : it.key = key)
    (hterm : next.terminated = true) :
    ∃ t1, ht_delete cap t key = some t1 ∧
      t1.overflow_buckets[i]? = some LinkedList.null ∧
      t1.items = t.items ∧ t1.count = t.count ∧ t1.size = t.size ∧
      ∀ j, j ≠ i → t1.overflow_buckets[j]? = t.overflow_buckets[j]? := by
  have hfree : free_linkedlist (LinkedList.node it next) = some () :=
    free_linkedlist_terminated _ (by simpa [LinkedList.terminated] using hterm)
  have hdel := ht_delete_head hi hitem hchain hkey hhead
  rw [hfree, Option.map_some'] at hdel
  refine ⟨_, hdel, getElem?_set_same LinkedList.null hchain, rfl, rfl, rfl, ?_⟩
  intro j hj
  exact List.getElem?_set_ne (Ne.symm hj)

theorem delete_chain_head_discards_chain_witness :
    (ht_index 5 [97, 99, 98] = some 4 ∧
      table_four.items[4]? = some (some (create_item [97, 98, 99] [49])) ∧
      table_four.overflow_buckets[4]? =
        some (LinkedList.node (create_item [97, 99, 98] [50])
          (LinkedList.node (create_item [98, 97, 99] [51])
            (LinkedList.node (create_item [98, 99, 97] [52]) LinkedList.null)))) ∧
    ∃ t1, ht_delete 5 table_four [97, 99, 98] = some t1 ∧
      t1.overflow_buckets[4]? = some LinkedList.null ∧
      t1.items = table_four.items ∧ t1.count = table_four.count ∧
      t1.size = table_four.size ∧
      ∀ j, j ≠ 4 → t1.overflow_buckets[j]? = table_four.overflow_buckets[j]? :=
  ⟨by decide,
   delete_chain_head_discards_chain 5 table_four [97, 99, 98] 4
    (create_item [97, 98, 99] [49]) (create_item [97, 99, 98] [50])
    (LinkedList.node (create_item [98, 97, 99] [51])
      (LinkedList.node (create_item [98, 99, 97] [52]) LinkedList.null))
    (by decide) (by decide) (by decide) (by decide) (by decide) (by decide)⟩

/-- C17. Promotion on primary delete: when the primary entry at the index `i`
of `key` has that key and the chain at `i` starts with a node holding
`(k1, v1)` followed by `tail`, `ht_delete(key)` puts `(k1, v1)` into the
primary slot at `i`, makes `tail` the chain at `i`, and leaves `count`, `size`
and every other index of both arrays as they were. -/
theorem promotion_on_primary_delete (cap : Nat) (t : HashTable) (key k1 v1 : CString)
    (i : Nat) (item : Ht_item) (tail : LinkedList)
    (hi : ht_index cap key = some i) (hitem : t.items[i]? = some (some item))
    (hchain : t.overflow_buckets[i]? =
      some (LinkedList.node (create_item k1 v1) tail))
    (hkey : item.key = key) :
    ∃ t1, ht_delete cap t key = some t1 ∧
      t1.items[i]? = some (some (create_item k1 v1)) ∧
      t1.overflow_buckets[i]? = some tail ∧
      t1.count = t.count ∧ t1.size = t.size ∧
      ∀ j, j ≠ i → t1.items[j]? = t.items[j]? ∧
        t1.overflow_buckets[j]? = t.overflow_buckets[j]? := by
  have hdel := ht_delete_promote hi hitem hchain hkey
  refine ⟨_, hdel, getElem?_set_same _ hitem, getElem?_set_same tail hchain,
    rfl, rfl, ?_⟩
  intro j hj
  exact ⟨List.getElem?_set_ne (Ne.symm hj), List.getElem?_set_ne (Ne.symm hj)⟩

theorem promotion_on_primary_delete_witness :
    (ht_index 5 [97, 98, 99] = some 4 ∧
      table_four.items[4]? = some (some (create_item [97, 98, 99] [49])) ∧
      table_four.overflow_buckets[4]? =
        some (LinkedList.node (create_item [97, 99, 98] [50])
          (LinkedList.node (create_item [98, 97, 99] [51])
            (LinkedList.node (create_item [98, 99, 97] [52]) LinkedList.null)))) ∧
    ∃ t1, ht_delete 5 table_four [97, 98, 99] = some t1 ∧
      t1.items[4]? = some (some (create_item [97, 99, 98] [50])) ∧
      t1.overflow_buckets[4]? =
        some (LinkedList.node (create_item [98, 97, 99] [51])
          (LinkedList.node (create_item [98, 99, 97] [52]) LinkedList.null)) ∧
      t1.count = table_four.count ∧ t1.size = table_four.size ∧
      ∀ j, j ≠ 4 → t1.items[j]? = table_four.items[j]? ∧
        t1.overflow_buckets[j]? = table_four.overflow_buckets[j]? :=
  ⟨by decide,
   promotion_on_primary_delete 5 table_four [97, 98, 99] [97, 99, 98] [50] 4
    (create_item [97, 98, 99] [49])
    (LinkedList.node (create_item [98, 97, 99] [51])
      (LinkedList.node (create_item [98, 99, 97] [52]) LinkedList.null))
    (by decide) (by decide) (by decide) (by decide)⟩

/-! ## The value of the hash -/

theorem hash_function_loop_eq (str : CString) :
    ∀ (j i : Nat), i < 2 ^ 64 → j + str.length < 2 ^ 31 →
      hash_function_loop str j i = some (((i : Int) + str.sum) % 2 ^ 64).toNat := by
  induction str with
  | nil =>
    intro j i hi _
    simp only [hash_function_loop, List.sum_nil, add_zero]
    have h : ((i : Int)) % 2 ^ 64 = (i : Int) := Int.emod_eq_of_lt (by omega) (by omega)
    rw [h, Int.toNat_ofNat]
  | cons c str ih =>
    intro j i _ hj
    simp only [List.length_cons] at hj
    have hnonneg : 0 ≤ ((i : Int) + c) % 2 ^ 64 := Int.emod_nonneg _ (by norm_num)
    have hlt : ((i : Int) + c) % 2 ^ 64 < 2 ^ 64 := Int.emod_lt_of_pos _ (by norm_num)
    have hlt2 : (((i : Int) + c) % 2 ^ 64).toNat < 2 ^ 64 := by omega
    have hstep : ¬ (2 ^ 31 ≤ j + 1) := by omega
    rw [hash_function_loop, if_neg hstep, ih (j + 1) _ hlt2 (by omega),
      Int.toNat_of_nonneg hnonneg, List.sum_cons, Int.emod_add_emod, add_assoc]

theorem hash_function_loop_overflow (str : CString) :
    ∀ (j i : Nat), 2 ^ 31 ≤ j + str.length → j < 2 ^ 31 →
      hash_function_loop str j i = none := by
  induction str with
  | nil =>
    intro j i h hj
    simp only [List.length_nil, add_zero] at h
    omega
  | cons c str ih =>
    intro j i h hj
    simp only [List.length_cons] at h
    by_cases hstep : 2 ^ 31 ≤ j + 1
    · rw [hash_function_loop, if_pos hstep]
    · rw [hash_function_loop, if_neg hstep]
      exact ih (j + 1) _ (by omega) (by omega)

theorem sum_bounds (key : CString) (hcodes : ∀ c ∈ key, 0 ≤ c ∧ c ≤ 127) :
    0 ≤ key.sum ∧ key.sum ≤ 127 * (key.length : Int) := by
  induction key with
  | nil => simp
  | cons c key ih =>
    simp only [List.mem_cons, forall_eq_or_imp] at hcodes
    have h := ih hcodes.2
    simp only [List.sum_cons, List.length_cons, Nat.cast_add, Nat.cast_one]
    omega

theorem hash_function_long_key (cap : Nat) (key : CString)
    (hlen : 2 ^ 31 ≤ key.length) : hash_function cap key = none := by
  have hloop := hash_function_loop_overflow key 0 0 (by omega) (by norm_num)
  unfold hash_function
  rw [hloop]
  split <;> rfl

/-- C18, as stated, fails: not every key string has the hash the claim gives.
On the key made of `2^31` characters `'a'` the counter `int j` of the loop is
incremented past `INT_MAX`, so `hash_function` has no defined result. -/
theorem hash_value_counterexample :
    ¬ (∀ (cap : Nat) (key : CString), 0 < cap →
        hash_function cap key = some ((key.sum % 2 ^ 64).toNat % cap)) := by
  intro h
  have hlen : 2 ^ 31 ≤ (List.replicate (2 ^ 31) (97 : Int)).length :=
    Nat.le_of_eq (List.length_replicate _ _).symm
  have hnone := hash_function_long_key 5 _ hlen
  have hsome := h 5 (List.replicate (2 ^ 31) (97 : Int)) (Nat.succ_pos 4)
  rw [hnone] at hsome
  exact Option.noConfusion hsome

/-- C18, amended: for a positive `HT_CAPACITY` and a key of fewer than `2^31`
characters (the range of the `int` loop counter), `hash_function(key)` is the
sum of the `char` values of the key, taken modulo `2^64` as the `unsigned long`
accumulator does, reduced modulo `HT_CAPACITY`; when all codes are in 0..127 it
is the plain sum of the codes modulo `HT_CAPACITY`; the empty key hashes to 0. -/
theorem hash_value_bounded (cap : Nat) (key : CString) (hcap : 0 < cap)
    (hlen : key.length < 2 ^ 31) :
    hash_function cap key = some ((key.sum % 2 ^ 64).toNat % cap) ∧
    ((∀ c ∈ key, 0 ≤ c ∧ c ≤ 127) →
      hash_function cap key = some (key.sum.toNat % cap)) ∧
    hash_function cap [] = some 0 := by
  have hne : cap ≠ 0 := by omega
  have hloop := hash_function_loop_eq key 0 0 (by norm_num) (by omega)
  simp only [Nat.cast_zero, zero_add] at hloop
  have hfirst : hash_function cap key = some ((key.sum % 2 ^ 64).toNat % cap) := by
    simp [hash_function, hne, hloop]
  refine ⟨hfirst, ?_, ?_⟩
  · intro hcodes
    obtain ⟨h0, h1⟩ := sum_bounds key hcodes
    have hmod : key.sum % 2 ^ 64 = key.sum := Int.emod_eq_of_lt h0 (by omega)
    rw [hfirst, hmod]
  · simp [hash_function, hne, hash_function_loop]

theorem hash_value_bounded_witness :
    (0 < 5 ∧ ([97, 98] : CString).length < 2 ^ 31 ∧
      ∀ c ∈ ([97, 98] : CString), 0 ≤ c ∧ c ≤ 127) ∧
    (hash_function 5 [97, 98] = some ((([97, 98] : CString).sum % 2 ^ 64).toNat % 5) ∧
      hash_function 5 [97, 98] = some (([97, 98] : CString).sum.toNat % 5) ∧
      hash_function 5 [] = some 0) :=
  ⟨by decide,
   (hash_value_bounded 5 [97, 98] (by decide) (by decide)).1,
   (hash_value_bounded 5 [97, 98] (by decide) (by decide)).2.1 (by decide),
   (hash_value_bounded 5 [97, 98] (by decide) (by decide)).2.2⟩

/-! ## The capacity check on reachable tables -/

theorem reachable_lengths (cap : Nat) (t : HashTable) (h : Reachable cap t) :
    t.items.length = t.size.toNat ∧ t.overflow_buckets.length = t.size.toNat := by
  induction h with
  | create size => simp [create_table, create_overflow_buckets]
  | insert key value _ hins ih =>
    obtain ⟨i, -, hc⟩ := ht_insert_cases hins
    rcases hc with ⟨-, -, rfl, -⟩ | ⟨-, -, -, rfl⟩ | ⟨cur, -, -, -, rfl⟩ |
      ⟨cur, head, list, -, -, -, -, -, rfl⟩ <;>
      simpa using ih
  | delete key _ hdel ih =>
    obtain ⟨i, -, hc⟩ := ht_delete_cases hdel
    rcases hc with ⟨-, rfl⟩ | ⟨item, -, -, -, rfl⟩ | ⟨item, -, -, -, rfl⟩ |
      ⟨item, it, next, -, -, -, rfl⟩ | ⟨item, it, next, list, -, -, -, rfl⟩ <;>
      simpa using ih

theorem occupied_slots_lt (l : List (Option Ht_item)) :
    occupied_slots l ≤ l.length ∧
      ∀ (i : Nat), l[i]? = some none → occupied_slots l < l.length := by
  induction l with
  | nil => exact ⟨Nat.le_refl _, fun i h => by simp at h⟩
  | cons x l ih =>
    refine ⟨?_, ?_⟩
    · cases x <;> simp only [occupied_slots, List.length_cons] <;> omega
    · intro i h
      cases i with
      | zero =>
        simp only [List.getElem?_cons_zero, Option.some.injEq] at h
        subst h
        simp only [occupied_slots, List.length_cons]
        omega
      | succ i =>
        simp only [List.getElem?_cons_succ] at h
        have := ih.2 i h
        cases x <;> simp only [occupied_slots, List.length_cons] <;> omega

theorem reachable_empty_slot_count (cap : Nat) (t : HashTable) (h : Reachable cap t)
    (i : Nat) (hitem : t.items[i]? = some none) : t.count < t.size := by
  have hcount := reachable_count cap t h
  have hlen := (reachable_lengths cap t h).1
  have hlt := (occupied_slots_lt t.items).2 i hitem
  omega

/-- C19. The "Hash Table is full" branch is unreachable: in every table
reachable from `create_table` by `ht_insert` and `ht_delete` calls (whatever
the size, in particular `size == HT_CAPACITY > 0`), an empty primary slot at
the index of a key implies `count < size`, and no call of `ht_insert` that
returns has taken the rejecting branch. -/
theorem full_branch_unreachable (cap : Nat) (t : HashTable) (h : Reachable cap t) :
    (∀ (k : CString) (i : Nat), ht_index cap k = some i →
      t.items[i]? = some none → t.count < t.size) ∧
    (∀ (k v : CString) (t1 : HashTable) (full : Bool),
      ht_insert cap t k v = some (t1, full) → full = false) := by
  refine ⟨fun k i _ hitem => reachable_empty_slot_count cap t h i hitem, ?_⟩
  intro k v t1 full hins
  obtain ⟨i, -, hc⟩ := ht_insert_cases hins
  rcases hc with ⟨hitem, hcount, -, -⟩ | ⟨-, -, hfull, -⟩ | ⟨cur, -, -, hfull, -⟩ |
    ⟨cur, head, list, -, -, -, -, hfull, -⟩
  · have := reachable_empty_slot_count cap t h i hitem
    omega
  · exact hfull
  · exact hfull
  · exact hfull

theorem full_branch_unreachable_witness :
    (Reachable 5 table_ab_ba ∧ ht_index 5 [97] = some 2 ∧
      table_ab_ba.items[2]? = some none) ∧
    table_ab_ba.count < table_ab_ba.size :=
  ⟨⟨table_ab_ba_reachable, by decide⟩,
   (full_branch_unreachable 5 table_ab_ba table_ab_ba_reachable).1 [97] 2
    (by decide) (by decide)⟩

/-! ## Insert and the other keys -/

theorem reach_dangling_chain (cap : Nat) (size : Int) (a b c va vb vc : CString)
    (i : Nat) (ha : ht_index cap a = some i) (hb : ht_index cap b = some i)
    (hc : ht_index cap c = some i) (hi : (i : Int) < size)
    (hab : a ≠ b) (hac : a ≠ c) (hbc : b ≠ c) :
    ∃ t, Reachable cap t ∧ t.items[i]? = some (some (create_item a va)) ∧
      t.overflow_buckets[i]? =
        some (LinkedList.node (create_item b vb) LinkedList.freed) := by
  obtain ⟨t2, t3, hreach, -, h3, hitem3, hchain3⟩ :=
    reach_chain_of_two cap size a b c va vb vc i ha hb hc hi hab hac
  have hdel := ht_delete_deeper hc hitem3 hchain3
    (show (create_item a va).key ≠ c from hac) (show (create_item b vb).key ≠ c from hbc)
  have hloop : ht_delete_loop c (LinkedList.node (create_item c vc) LinkedList.null) =
      some LinkedList.freed := by
    simp [ht_delete_loop, create_item]
  rw [hloop, Option.map_some'] at hdel
  exact ⟨_, Reachable.delete c (Reachable.insert c vc hreach h3) hdel, hitem3,
    getElem?_set_same _ hchain3⟩

/-- C10. Delete of an absent key is not always a no-op: from a fresh table,
after inserting three distinct keys `a`, `b`, `c` of the same in-range index
and deleting `c`, the chain at that index is the node of `b` followed by a
pointer to the released node of `c`. For a key `d` of that index which is
neither the primary key `a` nor the key `b` of the one live chain node,
`ht_delete(d)` walks the chain into the released node: it has no defined
result, where the claim has it return the table unchanged. -/
theorem delete_absent_reads_released (cap : Nat) (size : Int)
    (a b c d va vb vc : CString) (i : Nat)
    (ha : ht_index cap a = some i) (hb : ht_index cap b = some i)
    (hc : ht_index cap c = some i) (hd : ht_index cap d = some i)
    (hi : (i : Int) < size) (hab : a ≠ b) (hac : a ≠ c) (hbc : b ≠ c)
    (had : a ≠ d) (hbd : b ≠ d) :
    ∃ t, Reachable cap t ∧ t.items[i]? = some (some (create_item a va)) ∧
      t.overflow_buckets[i]? =
        some (LinkedList.node (create_item b vb) LinkedList.freed) ∧
      (∀ it ∈ (LinkedList.node (create_item b vb) LinkedList.freed).nodes,
        it.key ≠ d) ∧
      ht_delete cap t d = none := by
  obtain ⟨t, hreach, hitem, hchain⟩ :=
    reach_dangling_chain cap size a b c va vb vc i ha hb hc hi hab hac hbc
  refine ⟨t, hreach, hitem, hchain, ?_, ?_⟩
  · intro it hit
    simp only [LinkedList.nodes, List.mem_singleton] at hit
    subst hit
    exact hbd
  · rw [ht_delete_deeper hd hitem hchain
      (show (create_item a va).key ≠ d from had) (show (create_item b vb).key ≠ d from hbd)]
    rfl

theorem delete_absent_reads_released_witness :
    (ht_index 5 [97, 98, 99] = some 4 ∧ ht_index 5 [97, 99, 98] = some 4 ∧
      ht_index 5 [98, 97, 99] = some 4 ∧ ht_index 5 [99, 97, 98] = some 4 ∧
      ((4 : Nat) : Int) < 5 ∧
      ([97, 98, 99] : CString) ≠ [97, 99, 98] ∧
      ([97, 98, 99] : CString) ≠ [98, 97, 99] ∧
      ([97, 99, 98] : CString) ≠ [98, 97, 99] ∧
      ([97, 98, 99] : CString) ≠ [99, 97, 98] ∧
      ([97, 99, 98] : CString) ≠ [99, 97, 98]) ∧
    ∃ t, Reachable 5 t ∧
      t.items[4]? = some (some (create_item [97, 98, 99] [49])) ∧
      t.overflow_buckets[4]? =
        some (LinkedList.node (create_item [97, 99, 98] [50]) LinkedList.freed) ∧
      (∀ it ∈ (LinkedList.node (create_item [97, 99, 98] [50]) LinkedList.freed).nodes,
        it.key ≠ [99, 97, 98]) ∧
      ht_delete 5 t [99, 97, 98] = none :=
  ⟨by decide,
   delete_absent_reads_released 5 5 [97, 98, 99] [97, 99, 98] [98, 97, 99]
    [99, 97, 98] [49] [50] [51] 4 (by decide) (by decide) (by decide) (by decide)
    (by decide) (by decide) (by decide) (by decide) (by decide) (by decide)⟩

/-- C12. Search does not always equal its reference definition: from a fresh
table, after inserting three distinct keys `a`, `b`, `c` of the same in-range
index and deleting `c`, for a key `d` of that index different from `a` and `b`
the reference definition over the primary entry and the live chain nodes gives
"not found", while `ht_search(d)` walks the chain into the released node of
`c` and has no defined result instead of returning `NULL`. -/
theorem search_absent_reads_released (cap : Nat) (size : Int)
    (a b c d va vb vc : CString) (i : Nat)
    (ha : ht_index cap a = some i) (hb : ht_index cap b = some i)
    (hc : ht_index cap c = some i) (hd : ht_index cap d = some i)
    (hi : (i : Int) < size) (hab : a ≠ b) (hac : a ≠ c) (hbc : b ≠ c)
    (had : a ≠ d) (hbd : b ≠ d) :
    ∃ t, Reachable cap t ∧ t.items[i]? = some (some (create_item a va)) ∧
      t.overflow_buckets[i]? =
        some (LinkedList.node (create_item b vb) LinkedList.freed) ∧
      ht_search_spec (some (create_item a va))
        (LinkedList.node (create_item b vb) LinkedList.freed).nodes d = none ∧
      ht_search cap t d = none := by
  obtain ⟨t, hreach, hitem, hchain⟩ :=
    reach_dangling_chain cap size a b c va vb vc i ha hb hc hi hab hac hbc
  refine ⟨t, hreach, hitem, hchain, ?_, ?_⟩
  · simp [ht_search_spec, LinkedList.nodes, create_item, had, hbd]
  · rw [ht_search_item hd hitem hchain]
    simp [ht_search_loop, create_item, had, hbd]

theorem search_absent_reads_released_witness :
    (ht_index 5 [97, 98, 99] = some 4 ∧ ht_index 5 [97, 99, 98] = some 4 ∧
      ht_index 5 [98, 97, 99] = some 4 ∧ ht_index 5 [99, 97, 98] = some 4 ∧
      ((4 : Nat) : Int) < 5 ∧
      ([97, 98, 99] : CString) ≠ [97, 99, 98] ∧
      ([97, 98, 99] : CString) ≠ [98, 97, 99] ∧
      ([97, 99, 98] : CString) ≠ [98, 97, 99] ∧
      ([97, 98, 99] : CString) ≠ [99, 97, 98] ∧
      ([97, 99, 98] : CString) ≠ [99, 97, 98]) ∧
    ∃ t, Reachable 5 t ∧
      t.items[4]? = some (some (create_item [97, 98, 99] [49])) ∧
      t.overflow_buckets[4]? =
        some (LinkedList.node (create_item [97, 99, 98] [50]) LinkedList.freed) ∧
      ht_search_spec (some (create_item [97, 98, 99] [49]))
        (LinkedList.node (create_item [97, 99, 98] [50]) LinkedList.freed).nodes
        [99, 97, 98] = none ∧
      ht_search 5 t [99, 97, 98] = none :=
  ⟨by decide,
   search_absent_reads_released 5 5 [97, 98, 99] [97, 99, 98] [98, 97, 99]
    [99, 97, 98] [49] [50] [51] 4 (by decide) (by decide) (by decide) (by decide)
    (by decide) (by decide) (by decide) (by decide) (by decide) (by decide)⟩

/-- C16. Delete of the chain head does not always leave an empty chain: from
a fresh table, after inserting three distinct keys `a`, `b`, `c` of the same
in-range index and deleting `c`, the primary key `a` differs from `b` and the
first chain node has key `b`; `ht_delete(b)` calls `free_linkedlist(head)`,
which walks from the node of `b` into the node of `c` released before, so the
call has no defined result instead of setting the chain to `NULL`. -/
theorem delete_chain_head_frees_twice (cap : Nat) (size : Int)
    (a b c va vb vc : CString) (i : Nat)
    (ha : ht_index cap a = some i) (hb : ht_index cap b = some i)
    (hc : ht_index cap c = some i) (hi : (i : Int) < size)
    (hab : a ≠ b) (hac : a ≠ c) (hbc : b ≠ c) :
    ∃ t, Reachable cap t ∧ t.items[i]? = some (some (create_item a va)) ∧
      t.overflow_buckets[i]? =
        some (LinkedList.node (create_item b vb) LinkedList.freed) ∧
      ht_delete cap t b = none := by
  obtain ⟨t, hreach, hitem, hchain⟩ :=
    reach_dangling_chain cap size a b c va vb vc i ha hb hc hi hab hac hbc
  refine ⟨t, hreach, hitem, hchain, ?_⟩
  rw [ht_delete_head hb hitem hchain
    (show (create_item a va).key ≠ b from hab) (show (create_item b vb).key = b from rfl)]
  rfl

theorem delete_chain_head_frees_twice_witness :
    (ht_index 5 [97, 98, 99] = some 4 ∧ ht_index 5 [97, 99, 98] = some 4 ∧
      ht_index 5 [98, 97, 99] = some 4 ∧ ((4 : Nat) : Int) < 5 ∧
      ([97, 98, 99] : CString) ≠ [97, 99, 98] ∧
      ([97, 98, 99] : CString) ≠ [98, 97, 99] ∧
      ([97, 99, 98] : CString) ≠ [98, 97, 99]) ∧
    ∃ t, Reachable 5 t ∧
      t.items[4]? = some (some (create_item [97, 98, 99] [49])) ∧
      t.overflow_buckets[4]? =
        some (LinkedList.node (create_item [97, 99, 98] [50]) LinkedList.freed) ∧
      ht_delete 5 t [97, 99, 98] = none :=
  ⟨by decide,
   delete_chain_head_frees_twice 5 5 [97, 98, 99] [97, 99, 98] [98, 97, 99]
    [49] [50] [51] 4 (by decide) (by decide) (by decide) (by decide)
    (by decide) (by decide) (by decide)⟩

end HashMapC
